import Mathlib

/-!
# Collision resolution in `hashin1.c`

A shallow embedding of the three hash tables of `src/hashin1.c` (separate
chaining, linear probing, quadratic probing) and proofs about their insert
and search operations.

Modelling conventions.

* C `int` values are `Int`.  Every arithmetic expression of the table
  operations stays far inside the 32-bit range (`hash` lies in `[-9, 9]`, the
  attempt counter in `[1, 11]`, `(i-1)*(i-1)` is at most `81`), so no wrap-around
  is involved.  The counter of `search_chain` grows with the chain walked: its
  increment at `INT_MAX`, a signed overflow, is an explicit outcome.
* C `%` on `int` truncates towards zero: it is `Int.tmod`.
* The global arrays `linear` and `quadratic` are `List Int`; `hashtable` is a
  `List (List Int)`, a slot holding the keys of its linked list from the head
  on (`NULL` is `[]`).  Each operation takes the array it works on and returns
  it, so that a write is visible in the result.
* An array access with an index outside the array, and falling off the end of
  an `int` function without `return`, are explicit outcomes.
* A `while` loop is a recursion on a fuel counter; running out of fuel is an
  outcome of its own, and the entry points pass `SIZE + 1` units, which is what
  ten tested attempts and the final failing loop test consume.
-/

namespace HashIn1

/-! ## Data model -/

/-- The macro `EMPTY`, the sentinel of a free cell. -/
def EMPTY : Int := -1

/-- The macro `SIZE`, the capacity of every table. -/
def SIZE : Int := 10

/-- The largest value of a 32-bit `int`. -/
def INT_MAX : Int := 2147483647

/-- How a call of one of the `int` functions of the tables ends. -/
inductive Outcome where
  /-- A `return v;` statement was executed. -/
  | returned (v : Int)
  /-- The insert loop ended, `No space in the hashtable` was printed, and control
  reached the closing brace: the caller gets no defined value. -/
  | noSpace
  /-- The search loop ended and control reached the closing brace without any
  `return` and without printing: the caller gets no defined value. -/
  | noValue
  /-- An array was indexed outside `[0, SIZE)`. -/
  | badIndex (idx : Int)
  /-- The fuel of the model was used up. -/
  | outOfFuel
  /-- The counter `i` of `search_chain` was incremented at `INT_MAX`: a signed
  overflow, after which the behaviour of the program is undefined. -/
  | counterOverflow
deriving DecidableEq, Repr

/-- Reading `a[idx]` for an `int` index: defined only inside the array.  Used
for the cells of `linear` and `quadratic` and for the heads in `hashtable`. -/
def readCell {α : Type} (a : List α) (idx : Int) : Option α :=
  if 0 ≤ idx then a[idx.toNat]? else none

/-- The arrays `linear` and `quadratic` as the program finds them at start-up:
objects of static storage are zero-initialised. -/
def staticTable : List Int := List.replicate SIZE.toNat 0

/-- The array `hashtable` at start-up: ten `NULL` heads. -/
def staticChains : List (List Int) := List.replicate SIZE.toNat []

/-! ## Operations -/

/-- `init`: the `for` loop over `i = 0 .. SIZE-1` stores `EMPTY` in `linear[i]`
and `quadratic[i]`.  The result is the pair `(linear, quadratic)`. -/
def init (linear quadratic : List Int) : List Int × List Int :=
  (List.range SIZE.toNat).foldl
    (fun s i => (s.1.set i EMPTY, s.2.set i EMPTY)) (linear, quadratic)

/-- `hash`: `key % SIZE` with the truncating remainder of C. -/
def hash (key : Int) : Int := Int.tmod key SIZE

/-- `insertchain`: a new node holding `key` becomes the head of the list at
`hash key`, linked to the previous head.  `none` stands for an index outside
the array.  `malloc` is taken to succeed. -/
def insertchain (key : Int) (hashtable : List (List Int)) : Option (List (List Int)) :=
  let index := hash key
  match readCell hashtable index with
  | none => none
  | some head => some (hashtable.set index.toNat (key :: head))

/-- The `while (temp != NULL)` loop of `search_chain`, on the rest of the list
and the counter `i`: a node holding the key ends it with `return i`; any other
node is followed by `temp=temp->next; i++;`, where `i++` overflows when `i` is
`INT_MAX`; the end of the list gives `return -1`. -/
def search_chainLoop (key : Int) : List Int → Int → Outcome
  | [], _ => Outcome.returned (-1)
  | k :: next, i =>
    if k = key then Outcome.returned i
    else if i < INT_MAX then search_chainLoop key next (i + 1)
    else Outcome.counterOverflow

/-- `search_chain`: walk the list at `hash key` counting from `1`. -/
def search_chain (key : Int) (hashtable : List (List Int)) : Outcome :=
  let index := hash key
  match readCell hashtable index with
  | none => Outcome.badIndex index
  | some temp => search_chainLoop key temp 1

/-- The `while (i <= SIZE)` loop of `insertlinear`. -/
def insertlinearLoop (key index : Int) : Nat → Int → List Int → Outcome × List Int
  | 0, _, linear => (Outcome.outOfFuel, linear)
  | fuel + 1, i, linear =>
    if i ≤ SIZE then
      let newIndex := Int.tmod (index + (i - 1)) SIZE
      match readCell linear newIndex with
      | none => (Outcome.badIndex newIndex, linear)
      | some c =>
        if c = EMPTY then (Outcome.returned i, linear.set newIndex.toNat key)
        else insertlinearLoop key index fuel (i + 1) linear
    else (Outcome.noSpace, linear)

/-- `insertlinear`: the outcome and the array `linear` afterwards. -/
def insertlinear (key : Int) (linear : List Int) : Outcome × List Int :=
  insertlinearLoop key (hash key) (SIZE.toNat + 1) 1 linear

/-- The `while (i <= SIZE)` loop of `searchlinear`. -/
def searchlinearLoop (key index : Int) : Nat → Int → List Int → Outcome × List Int
  | 0, _, linear => (Outcome.outOfFuel, linear)
  | fuel + 1, i, linear =>
    if i ≤ SIZE then
      let newIndex := Int.tmod (index + (i - 1)) SIZE
      match readCell linear newIndex with
      | none => (Outcome.badIndex newIndex, linear)
      | some c =>
        if c = EMPTY then (Outcome.returned (-1), linear)
        else if c = key then (Outcome.returned i, linear)
        else searchlinearLoop key index fuel (i + 1) linear
    else (Outcome.noValue, linear)

/-- `searchlinear`: the outcome and the array `linear` afterwards. -/
def searchlinear (key : Int) (linear : List Int) : Outcome × List Int :=
  searchlinearLoop key (hash key) (SIZE.toNat + 1) 1 linear

/-- The `while (i <= SIZE)` loop of `insertquad`. -/
def insertquadLoop (key index : Int) : Nat → Int → List Int → Outcome × List Int
  | 0, _, quadratic => (Outcome.outOfFuel, quadratic)
  | fuel + 1, i, quadratic =>
    if i ≤ SIZE then
      let newIndex := Int.tmod (index + (i - 1) * (i - 1)) SIZE
      match readCell quadratic newIndex with
      | none => (Outcome.badIndex newIndex, quadratic)
      | some c =>
        if c = EMPTY then (Outcome.returned i, quadratic.set newIndex.toNat key)
        else insertquadLoop key index fuel (i + 1) quadratic
    else (Outcome.noSpace, quadratic)

/-- `insertquad`: the outcome and the array `quadratic` afterwards. -/
def insertquad (key : Int) (quadratic : List Int) : Outcome × List Int :=
  insertquadLoop key (hash key) (SIZE.toNat + 1) 1 quadratic

/-- The `while (i <= SIZE)` loop of `searchquad`. -/
def searchquadLoop (key index : Int) : Nat → Int → List Int → Outcome × List Int
  | 0, _, quadratic => (Outcome.outOfFuel, quadratic)
  | fuel + 1, i, quadratic =>
    if i ≤ SIZE then
      let newIndex := Int.tmod (index + (i - 1) * (i - 1)) SIZE
      match readCell quadratic newIndex with
      | none => (Outcome.badIndex newIndex, quadratic)
      | some c =>
        if c = EMPTY then (Outcome.returned (-1), quadratic)
        else if c = key then (Outcome.returned i, quadratic)
        else searchquadLoop key index fuel (i + 1) quadratic
    else (Outcome.noValue, quadratic)

/-- `searchquad`: the outcome and the array `quadratic` afterwards. -/
def searchquad (key : Int) (quadratic : List Int) : Outcome × List Int :=
  searchquadLoop key (hash key) (SIZE.toNat + 1) 1 quadratic

/-! ## Derived notions used in the statements -/

/-- The linear table after `init`. -/
def emptyLinear : List Int := (init staticTable staticTable).1

/-- The quadratic table after `init`. -/
def emptyQuadratic : List Int := (init staticTable staticTable).2

/-- Inserting a list of keys, in order, with `insertlinear`: the outcomes in
order and the final array. -/
def insertlinearAll : List Int → List Int → List Outcome × List Int
  | [], linear => ([], linear)
  | key :: rest, linear =>
    let r := insertlinear key linear
    let rs := insertlinearAll rest r.2
    (r.1 :: rs.1, rs.2)

/-- Inserting a list of keys, in order, with `insertchain`. -/
def insertchainAll : List Int → List (List Int) → Option (List (List Int))
  | [], hashtable => some hashtable
  | key :: rest, hashtable =>
    match insertchain key hashtable with
    | none => none
    | some hashtable1 => insertchainAll rest hashtable1

/-- Inserting a list of keys, in order, with `insertquad`. -/
def insertquadAll : List Int → List Int → List Outcome × List Int
  | [], quadratic => ([], quadratic)
  | key :: rest, quadratic =>
    let r := insertquad key quadratic
    let rs := insertquadAll rest r.2
    (r.1 :: rs.1, rs.2)

/-- The common shape of the two insert loops, the probed index of attempt `i`
being `p i`.  Only a proof device: `insertlinearLoop` and `insertquadLoop` are
shown to be instances of it. -/
def probeInsert (p : Int → Int) (key : Int) : Nat → Int → List Int → Outcome × List Int
  | 0, _, t => (Outcome.outOfFuel, t)
  | fuel + 1, i, t =>
    if i ≤ SIZE then
      match readCell t (p i) with
      | none => (Outcome.badIndex (p i), t)
      | some c =>
        if c = EMPTY then (Outcome.returned i, t.set (p i).toNat key)
        else probeInsert p key fuel (i + 1) t
    else (Outcome.noSpace, t)

/-- The common shape of the two search loops. -/
def probeSearch (p : Int → Int) (key : Int) : Nat → Int → List Int → Outcome × List Int
  | 0, _, t => (Outcome.outOfFuel, t)
  | fuel + 1, i, t =>
    if i ≤ SIZE then
      match readCell t (p i) with
      | none => (Outcome.badIndex (p i), t)
      | some c =>
        if c = EMPTY then (Outcome.returned (-1), t)
        else if c = key then (Outcome.returned i, t)
        else probeSearch p key fuel (i + 1) t
    else (Outcome.noValue, t)

/-- The index probed by attempt `i` of the linear operations, from `index`. -/
def linearProbe (index i : Int) : Int := Int.tmod (index + (i - 1)) SIZE

/-- The index probed by attempt `i` of the quadratic operations, from `index`. -/
def quadProbe (index i : Int) : Int := Int.tmod (index + (i - 1) * (i - 1)) SIZE

/-- The probe sequence of the linear operations for a non-negative key, written
with the mathematical remainder. -/
def linearSeq (key i : Int) : Int := (key % 10 + (i - 1)) % 10

/-- The probe sequence of the quadratic operations for a non-negative key. -/
def quadSeq (key i : Int) : Int := (key % 10 + (i - 1) * (i - 1)) % 10

/-- A run of insertions in the common shape of the two insert loops, the probe
sequence of key `k` being `P k`.  Only a proof device, like `probeInsert`. -/
def probeInsertAll (P : Int → Int → Int) : List Int → List Int → List Outcome × List Int
  | [], t => ([], t)
  | key :: rest, t =>
    let r := probeInsert (P key) key 11 1 t
    let rs := probeInsertAll P rest r.2
    (r.1 :: rs.1, rs.2)

/-! ## The driver -/

/-- C `/` on `int`: the quotient truncated towards zero.  It has no value when
the divisor is `0`, nor for `INT_MIN / -1`. -/
def cDiv (a b : Int) : Option Int :=
  if b = 0 then none
  else if a = -2147483648 ∧ b = -1 then none
  else some (Int.tdiv a b)

/-- The variables that the insertion loop of `main` updates: the two counters
and the three tables. -/
structure DriverState where
  linearprobe : Int
  quadprobe : Int
  linear : List Int
  quadratic : List Int
  hashtable : List (List Int)
deriving DecidableEq, Repr

/-- How a run of `main` ends. -/
inductive DriverOutcome where
  /-- The two averages were printed, then the result of `searchquad(32)`; a
  search that ended without a value prints an indeterminate number. -/
  | finished (averageLinear averageQuad : Int) (found : Outcome)
  /-- A division `linearprobe/n` or `quadprobe/n` without a value, as for `n = 0`. -/
  | divisionUndefined
  /-- The value of an insert call that ended without `return` was added to a
  counter. -/
  | noValueUsed
  /-- An array was indexed outside `[0, SIZE)`. -/
  | badIndex (idx : Int)
  /-- Fewer than `n` elements were supplied, so `arr[i]` was never written. -/
  | badInput
  /-- The fuel of a loop model was used up. -/
  | outOfFuel
  /-- A call ended in the overflow of an `int` counter. -/
  | counterOverflow
deriving DecidableEq, Repr

/-- Either the state after some iterations of the insertion loop, or the way
the run ended inside it. -/
inductive LoopResult where
  | next (s : DriverState)
  | stopped (o : DriverOutcome)
deriving DecidableEq, Repr

/-- Turning the outcome of an insert call into the value added to a counter. -/
def stepValue : Outcome → DriverOutcome ⊕ Int
  | Outcome.returned v => Sum.inr v
  | Outcome.noSpace => Sum.inl DriverOutcome.noValueUsed
  | Outcome.noValue => Sum.inl DriverOutcome.noValueUsed
  | Outcome.badIndex idx => Sum.inl (DriverOutcome.badIndex idx)
  | Outcome.outOfFuel => Sum.inl DriverOutcome.outOfFuel
  | Outcome.counterOverflow => Sum.inl DriverOutcome.counterOverflow

/-- One iteration of the insertion loop of `main`, for the element `key`:
`linearprobe+=insertlinear(key); quadprobe+=insertquad(key); insertchain(key);`. -/
def mainStep (key : Int) (s : DriverState) : LoopResult :=
  let r1 := insertlinear key s.linear
  match stepValue r1.1 with
  | Sum.inl o => LoopResult.stopped o
  | Sum.inr v1 =>
    let r2 := insertquad key s.quadratic
    match stepValue r2.1 with
    | Sum.inl o => LoopResult.stopped o
    | Sum.inr v2 =>
      match insertchain key s.hashtable with
      | none => LoopResult.stopped (DriverOutcome.badIndex (hash key))
      | some hashtable1 =>
        LoopResult.next
          { linearprobe := s.linearprobe + v1, quadprobe := s.quadprobe + v2,
            linear := r1.2, quadratic := r2.2, hashtable := hashtable1 }

/-- The insertion loop `for(int i=0;i<n;i++)` of `main`, over the indexes still to
be visited. -/
def mainLoop (arr : List Int) : List Nat → DriverState → LoopResult
  | [], s => LoopResult.next s
  | i :: rest, s =>
    match arr[i]? with
    | none => LoopResult.stopped DriverOutcome.badInput
    | some key =>
      match mainStep key s with
      | LoopResult.stopped o => LoopResult.stopped o
      | LoopResult.next s1 => mainLoop arr rest s1

/-- `main`, for the element count `n` and the elements `arr` read from the
input: `init`, the insertion loop, the two averages `linearprobe/n` and
`quadprobe/n`, and the search for `32` in the quadratic table.  (The displays of
the tables do not change the state and are left out.) -/
def main (n : Int) (arr : List Int) : DriverOutcome :=
  let tables := init staticTable staticTable
  let s0 : DriverState :=
    { linearprobe := 0, quadprobe := 0, linear := tables.1, quadratic := tables.2,
      hashtable := staticChains }
  match mainLoop arr (List.range n.toNat) s0 with
  | LoopResult.stopped o => o
  | LoopResult.next s =>
    match cDiv s.linearprobe n with
    | none => DriverOutcome.divisionUndefined
    | some averageLinear =>
      match cDiv s.quadprobe n with
      | none => DriverOutcome.divisionUndefined
      | some averageQuad =>
        DriverOutcome.finished averageLinear averageQuad (searchquad 32 s.quadratic).1

/-! ## Auxiliary lemmas -/

theorem insertlinearLoop_eq (key index : Int) (fuel : Nat) (i : Int) (t : List Int) :
    insertlinearLoop key index fuel i t = probeInsert (linearProbe index) key fuel i t := by
  induction fuel generalizing i with
  | zero => rfl
  | succ n ih => simp only [insertlinearLoop, probeInsert, linearProbe, ih]

theorem insertquadLoop_eq (key index : Int) (fuel : Nat) (i : Int) (t : List Int) :
    insertquadLoop key index fuel i t = probeInsert (quadProbe index) key fuel i t := by
  induction fuel generalizing i with
  | zero => rfl
  | succ n ih => simp only [insertquadLoop, probeInsert, quadProbe, ih]

theorem searchlinearLoop_eq (key index : Int) (fuel : Nat) (i : Int) (t : List Int) :
    searchlinearLoop key index fuel i t = probeSearch (linearProbe index) key fuel i t := by
  induction fuel generalizing i with
  | zero => rfl
  | succ n ih => simp only [searchlinearLoop, probeSearch, linearProbe, ih]

theorem searchquadLoop_eq (key index : Int) (fuel : Nat) (i : Int) (t : List Int) :
    searchquadLoop key index fuel i t = probeSearch (quadProbe index) key fuel i t := by
  induction fuel generalizing i with
  | zero => rfl
  | succ n ih => simp only [searchquadLoop, probeSearch, quadProbe, ih]

theorem hash_of_nonneg {key : Int} (h : 0 ≤ key) : hash key = key % 10 := by
  unfold hash SIZE
  exact Int.tmod_eq_emod h (by decide)

theorem linearProbe_hash {key : Int} (h : 0 ≤ key) {i : Int} (hi : 1 ≤ i) :
    linearProbe (hash key) i = (key % 10 + (i - 1)) % 10 := by
  unfold linearProbe SIZE
  rw [hash_of_nonneg h]
  exact Int.tmod_eq_emod (by omega) (by decide)

theorem quadProbe_hash {key : Int} (h : 0 ≤ key) (i : Int) :
    quadProbe (hash key) i = (key % 10 + (i - 1) * (i - 1)) % 10 := by
  unfold quadProbe SIZE
  rw [hash_of_nonneg h]
  have h2 : 0 ≤ (i - 1) * (i - 1) := mul_self_nonneg _
  exact Int.tmod_eq_emod (by omega) (by decide)

/-- Inside a ten-cell array every index in `[0, 10)` reads a value. -/
theorem readCell_of_lt {α : Type} {t : List α} (hlen : t.length = 10) {n : Int}
    (h0 : 0 ≤ n) (h1 : n < 10) : ∃ c, readCell t n = some c := by
  have hn : n.toNat < t.length := by omega
  exact ⟨t[n.toNat], by simp [readCell, h0, List.getElem?_eq_getElem hn]⟩

theorem readCell_eq_none {α : Type} {t : List α} (hlen : t.length = 10) {n : Int}
    (h : n < 0 ∨ 10 ≤ n) : readCell t n = none := by
  unfold readCell
  split
  · exact List.getElem?_eq_none (by omega)
  · rfl

/-- Reading after a write at an index inside the array. -/
theorem readCell_set {α : Type} {t : List α} (hlen : t.length = 10) {a : Int}
    (h0 : 0 ≤ a) (h1 : a < 10) (v : α) (n : Int) :
    readCell (t.set a.toNat v) n = if n = a then some v else readCell t n := by
  unfold readCell
  by_cases hn : 0 ≤ n
  · simp only [hn, if_true]
    by_cases hna : n = a
    · subst hna
      simp only [if_true]
      rw [List.getElem?_set_eq_of_lt]
      omega
    · simp only [hna, if_false]
      rw [List.getElem?_set_ne]
      omega
  · have : n ≠ a := by omega
    simp [hn, this]

theorem mem_iff_readCell {t : List Int} (hlen : t.length = 10) (v : Int) :
    v ∈ t ↔ ∃ n : Int, 0 ≤ n ∧ n < 10 ∧ readCell t n = some v := by
  rw [List.mem_iff_getElem?]
  constructor
  · rintro ⟨n, hn⟩
    have hlt : n < t.length := by
      rcases List.getElem?_eq_some.mp hn with ⟨h, _⟩
      exact h
    refine ⟨(n : Int), by omega, by omega, ?_⟩
    simp [readCell, hn]
  · rintro ⟨n, h0, _, hn⟩
    refine ⟨n.toNat, ?_⟩
    simpa [readCell, h0] using hn

/-- What the insert loop does from attempt `i` on, when every probed index lies
inside the array: it stops at the first attempt probing a free cell and writes
the key there, or finds none up to attempt ten and reports that. -/
theorem probeInsert_spec (p : Int → Int) (key : Int) (t : List Int) (hlen : t.length = 10)
    (hp : ∀ m : Int, 1 ≤ m → m ≤ 10 → 0 ≤ p m ∧ p m < 10) :
    ∀ (fuel : Nat) (i : Int), 1 ≤ i → i ≤ 11 → 11 - i < fuel →
      (∃ j : Int, i ≤ j ∧ j ≤ 10 ∧ readCell t (p j) = some EMPTY ∧
          (∀ m : Int, i ≤ m → m < j → readCell t (p m) ≠ some EMPTY) ∧
          probeInsert p key fuel i t = (Outcome.returned j, t.set (p j).toNat key)) ∨
      ((∀ m : Int, i ≤ m → m ≤ 10 → readCell t (p m) ≠ some EMPTY) ∧
          probeInsert p key fuel i t = (Outcome.noSpace, t)) := by
  intro fuel
  induction fuel with
  | zero => intro i _ h2 h3; omega
  | succ n ih =>
    intro i h1 h2 h3
    by_cases hi : i ≤ 10
    · obtain ⟨c, hc⟩ := readCell_of_lt hlen (hp i h1 hi).1 (hp i h1 hi).2
      by_cases hce : c = EMPTY
      · left
        refine ⟨i, le_refl i, hi, by rw [hc, hce], fun m hm1 hm2 => by omega, ?_⟩
        simp [probeInsert, SIZE, hi, hc, hce]
      · have hstep : probeInsert p key (n + 1) i t = probeInsert p key n (i + 1) t := by
          simp [probeInsert, SIZE, hi, hc, hce]
        have hne : readCell t (p i) ≠ some EMPTY := by
          rw [hc]; intro h; exact hce (Option.some.inj h)
        rcases ih (i + 1) (by omega) (by omega) (by omega) with ⟨j, hj1, hj2, hj3, hj4, hj5⟩ | ⟨hall, hres⟩
        · left
          refine ⟨j, by omega, hj2, hj3, ?_, by rw [hstep, hj5]⟩
          intro m hm1 hm2
          by_cases hmi : m = i
          · rw [hmi]; exact hne
          · exact hj4 m (by omega) hm2
        · right
          refine ⟨?_, by rw [hstep, hres]⟩
          intro m hm1 hm2
          by_cases hmi : m = i
          · rw [hmi]; exact hne
          · exact hall m (by omega) hm2
    · right
      refine ⟨fun m hm1 hm2 => by omega, ?_⟩
      simp [probeInsert, SIZE, hi]

/-- What the search loop does from attempt `i` on, when every probed index lies
inside the array: it stops at the first attempt probing a free cell (`-1`) or a
cell holding the key (the attempt number), or finds neither up to attempt ten
and leaves the loop without a value. -/
theorem probeSearch_spec (p : Int → Int) (key : Int) (t : List Int) (hlen : t.length = 10)
    (hp : ∀ m : Int, 1 ≤ m → m ≤ 10 → 0 ≤ p m ∧ p m < 10) :
    ∀ (fuel : Nat) (i : Int), 1 ≤ i → i ≤ 11 → 11 - i < fuel →
      (∃ j : Int, i ≤ j ∧ j ≤ 10 ∧
          (∀ m : Int, i ≤ m → m < j →
            readCell t (p m) ≠ some EMPTY ∧ readCell t (p m) ≠ some key) ∧
          ((readCell t (p j) = some EMPTY ∧
              probeSearch p key fuel i t = (Outcome.returned (-1), t)) ∨
            (readCell t (p j) = some key ∧ key ≠ EMPTY ∧
              probeSearch p key fuel i t = (Outcome.returned j, t)))) ∨
      ((∀ m : Int, i ≤ m → m ≤ 10 →
          readCell t (p m) ≠ some EMPTY ∧ readCell t (p m) ≠ some key) ∧
          probeSearch p key fuel i t = (Outcome.noValue, t)) := by
  intro fuel
  induction fuel with
  | zero => intro i _ h2 h3; omega
  | succ n ih =>
    intro i h1 h2 h3
    by_cases hi : i ≤ 10
    · obtain ⟨c, hc⟩ := readCell_of_lt hlen (hp i h1 hi).1 (hp i h1 hi).2
      by_cases hce : c = EMPTY
      · left
        refine ⟨i, le_refl i, hi, fun m hm1 hm2 => by omega, Or.inl ⟨by rw [hc, hce], ?_⟩⟩
        simp [probeSearch, SIZE, hi, hc, hce]
      · by_cases hck : c = key
        · left
          subst hck
          refine ⟨i, le_refl i, hi, fun m hm1 hm2 => by omega, Or.inr ⟨hc, hce, ?_⟩⟩
          simp [probeSearch, SIZE, hi, hc, hce]
        · have hstep : probeSearch p key (n + 1) i t = probeSearch p key n (i + 1) t := by
            simp [probeSearch, SIZE, hi, hc, hce, hck]
          have hne : readCell t (p i) ≠ some EMPTY ∧ readCell t (p i) ≠ some key := by
            rw [hc]
            exact ⟨fun h => hce (Option.some.inj h), fun h => hck (Option.some.inj h)⟩
          rcases ih (i + 1) (by omega) (by omega) (by omega) with ⟨j, hj1, hj2, hj3, hj4⟩ | ⟨hall, hres⟩
          · left
            refine ⟨j, by omega, hj2, ?_, ?_⟩
            · intro m hm1 hm2
              by_cases hmi : m = i
              · rw [hmi]; exact hne
              · exact hj3 m (by omega) hm2
            · rcases hj4 with ⟨ha, hb⟩ | ⟨ha, hb, hc2⟩
              · exact Or.inl ⟨ha, by rw [hstep, hb]⟩
              · exact Or.inr ⟨ha, hb, by rw [hstep, hc2]⟩
          · right
            refine ⟨?_, by rw [hstep, hres]⟩
            intro m hm1 hm2
            by_cases hmi : m = i
            · rw [hmi]; exact hne
            · exact hall m (by omega) hm2
    · right
      refine ⟨fun m hm1 hm2 => by omega, ?_⟩
      simp [probeSearch, SIZE, hi]

theorem probeInsert_congr (p q : Int → Int) (key : Int) (t : List Int)
    (hpq : ∀ m : Int, 1 ≤ m → p m = q m) :
    ∀ (fuel : Nat) (i : Int), 1 ≤ i → probeInsert p key fuel i t = probeInsert q key fuel i t := by
  intro fuel
  induction fuel with
  | zero => intro i _; rfl
  | succ n ih =>
    intro i hi
    simp only [probeInsert, hpq i hi, ih (i + 1) (by omega)]

theorem probeSearch_congr (p q : Int → Int) (key : Int) (t : List Int)
    (hpq : ∀ m : Int, 1 ≤ m → p m = q m) :
    ∀ (fuel : Nat) (i : Int), 1 ≤ i → probeSearch p key fuel i t = probeSearch q key fuel i t := by
  intro fuel
  induction fuel with
  | zero => intro i _; rfl
  | succ n ih =>
    intro i hi
    simp only [probeSearch, hpq i hi, ih (i + 1) (by omega)]

theorem insertlinear_eq_probe {key : Int} (hkey : 0 ≤ key) (t : List Int) :
    insertlinear key t = probeInsert (fun i => (key % 10 + (i - 1)) % 10) key 11 1 t := by
  unfold insertlinear
  rw [insertlinearLoop_eq]
  exact probeInsert_congr _ _ key t (fun m hm => linearProbe_hash hkey hm) _ 1 (le_refl 1)

theorem searchlinear_eq_probe {key : Int} (hkey : 0 ≤ key) (t : List Int) :
    searchlinear key t = probeSearch (fun i => (key % 10 + (i - 1)) % 10) key 11 1 t := by
  unfold searchlinear
  rw [searchlinearLoop_eq]
  exact probeSearch_congr _ _ key t (fun m hm => linearProbe_hash hkey hm) _ 1 (le_refl 1)

theorem insertquad_eq_probe {key : Int} (hkey : 0 ≤ key) (t : List Int) :
    insertquad key t = probeInsert (fun i => (key % 10 + (i - 1) * (i - 1)) % 10) key 11 1 t := by
  unfold insertquad
  rw [insertquadLoop_eq]
  exact probeInsert_congr _ _ key t (fun m _ => quadProbe_hash hkey m) _ 1 (le_refl 1)

theorem searchquad_eq_probe {key : Int} (hkey : 0 ≤ key) (t : List Int) :
    searchquad key t = probeSearch (fun i => (key % 10 + (i - 1) * (i - 1)) % 10) key 11 1 t := by
  unfold searchquad
  rw [searchquadLoop_eq]
  exact probeSearch_congr _ _ key t (fun m _ => quadProbe_hash hkey m) _ 1 (le_refl 1)

theorem emod_ten_bounds (a : Int) : 0 ≤ a % 10 ∧ a % 10 < 10 := by omega

/-- The linear insert on a ten-cell table, for a non-negative key. -/
theorem insertlinear_spec {key : Int} (hkey : 0 ≤ key) {t : List Int} (hlen : t.length = 10) :
    (∃ j : Int, 1 ≤ j ∧ j ≤ 10 ∧ readCell t ((key % 10 + (j - 1)) % 10) = some EMPTY ∧
        (∀ m : Int, 1 ≤ m → m < j → readCell t ((key % 10 + (m - 1)) % 10) ≠ some EMPTY) ∧
        insertlinear key t
          = (Outcome.returned j, t.set ((key % 10 + (j - 1)) % 10).toNat key)) ∨
    ((∀ m : Int, 1 ≤ m → m ≤ 10 → readCell t ((key % 10 + (m - 1)) % 10) ≠ some EMPTY) ∧
        insertlinear key t = (Outcome.noSpace, t)) := by
  rw [insertlinear_eq_probe hkey]
  exact probeInsert_spec (fun i => (key % 10 + (i - 1)) % 10) key t hlen
    (fun m _ _ => emod_ten_bounds _) 11 1 (le_refl 1) (by decide) (by decide)

/-- The quadratic insert on a ten-cell table, for a non-negative key. -/
theorem insertquad_spec {key : Int} (hkey : 0 ≤ key) {t : List Int} (hlen : t.length = 10) :
    (∃ j : Int, 1 ≤ j ∧ j ≤ 10 ∧
        readCell t ((key % 10 + (j - 1) * (j - 1)) % 10) = some EMPTY ∧
        (∀ m : Int, 1 ≤ m → m < j →
          readCell t ((key % 10 + (m - 1) * (m - 1)) % 10) ≠ some EMPTY) ∧
        insertquad key t
          = (Outcome.returned j, t.set ((key % 10 + (j - 1) * (j - 1)) % 10).toNat key)) ∨
    ((∀ m : Int, 1 ≤ m → m ≤ 10 →
        readCell t ((key % 10 + (m - 1) * (m - 1)) % 10) ≠ some EMPTY) ∧
        insertquad key t = (Outcome.noSpace, t)) := by
  rw [insertquad_eq_probe hkey]
  exact probeInsert_spec (fun i => (key % 10 + (i - 1) * (i - 1)) % 10) key t hlen
    (fun m _ _ => emod_ten_bounds _) 11 1 (le_refl 1) (by decide) (by decide)

/-- The linear search on a ten-cell table, for a non-negative key. -/
theorem searchlinear_spec {key : Int} (hkey : 0 ≤ key) {t : List Int} (hlen : t.length = 10) :
    (∃ j : Int, 1 ≤ j ∧ j ≤ 10 ∧
        (∀ m : Int, 1 ≤ m → m < j →
          readCell t ((key % 10 + (m - 1)) % 10) ≠ some EMPTY ∧
          readCell t ((key % 10 + (m - 1)) % 10) ≠ some key) ∧
        ((readCell t ((key % 10 + (j - 1)) % 10) = some EMPTY ∧
            searchlinear key t = (Outcome.returned (-1), t)) ∨
          (readCell t ((key % 10 + (j - 1)) % 10) = some key ∧ key ≠ EMPTY ∧
            searchlinear key t = (Outcome.returned j, t)))) ∨
    ((∀ m : Int, 1 ≤ m → m ≤ 10 →
        readCell t ((key % 10 + (m - 1)) % 10) ≠ some EMPTY ∧
        readCell t ((key % 10 + (m - 1)) % 10) ≠ some key) ∧
        searchlinear key t = (Outcome.noValue, t)) := by
  rw [searchlinear_eq_probe hkey]
  exact probeSearch_spec (fun i => (key % 10 + (i - 1)) % 10) key t hlen
    (fun m _ _ => emod_ten_bounds _) 11 1 (le_refl 1) (by decide) (by decide)

/-- The quadratic search on a ten-cell table, for a non-negative key. -/
theorem searchquad_spec {key : Int} (hkey : 0 ≤ key) {t : List Int} (hlen : t.length = 10) :
    (∃ j : Int, 1 ≤ j ∧ j ≤ 10 ∧
        (∀ m : Int, 1 ≤ m → m < j →
          readCell t ((key % 10 + (m - 1) * (m - 1)) % 10) ≠ some EMPTY ∧
          readCell t ((key % 10 + (m - 1) * (m - 1)) % 10) ≠ some key) ∧
        ((readCell t ((key % 10 + (j - 1) * (j - 1)) % 10) = some EMPTY ∧
            searchquad key t = (Outcome.returned (-1), t)) ∨
          (readCell t ((key % 10 + (j - 1) * (j - 1)) % 10) = some key ∧ key ≠ EMPTY ∧
            searchquad key t = (Outcome.returned j, t)))) ∨
    ((∀ m : Int, 1 ≤ m → m ≤ 10 →
        readCell t ((key % 10 + (m - 1) * (m - 1)) % 10) ≠ some EMPTY ∧
        readCell t ((key % 10 + (m - 1) * (m - 1)) % 10) ≠ some key) ∧
        searchquad key t = (Outcome.noValue, t)) := by
  rw [searchquad_eq_probe hkey]
  exact probeSearch_spec (fun i => (key % 10 + (i - 1) * (i - 1)) % 10) key t hlen
    (fun m _ _ => emod_ten_bounds _) 11 1 (le_refl 1) (by decide) (by decide)

/-- Linear probing reaches every cell: cell `c` is probed by some attempt. -/
theorem linear_covers (key c : Int) (h0 : 0 ≤ c) (h1 : c < 10) :
    ∃ m : Int, 1 ≤ m ∧ m ≤ 10 ∧ (key % 10 + (m - 1)) % 10 = c :=
  ⟨(c - key % 10) % 10 + 1, by omega, by omega, by omega⟩

theorem insertlinear_length {key : Int} (hkey : 0 ≤ key) {t : List Int}
    (hlen : t.length = 10) : (insertlinear key t).2.length = 10 := by
  rcases insertlinear_spec hkey hlen with ⟨j, _, _, _, _, hres⟩ | ⟨_, hres⟩
  · rw [hres]; simpa using hlen
  · rw [hres]; exact hlen

/-- A write of a non-sentinel value into a free cell removes one free cell. -/
theorem count_EMPTY_set {t : List Int} (hlen : t.length = 10) {a : Int}
    (h0 : 0 ≤ a) (h1 : a < 10) (hfree : readCell t a = some EMPTY) {key : Int}
    (hkey : 0 ≤ key) : (t.set a.toNat key).count EMPTY + 1 = t.count EMPTY := by
  have hn : a.toNat < t.length := by omega
  have hget : t[a.toNat] = EMPTY := by
    have h := hfree
    simp only [readCell, h0, if_true, List.getElem?_eq_getElem hn] at h
    exact Option.some.inj h
  have hne : (key == EMPTY) = false := by
    have : key ≠ EMPTY := by unfold EMPTY; omega
    simpa using this
  have hpos : 0 < t.count EMPTY := by
    rw [List.count_pos_iff]
    exact hget ▸ List.getElem_mem hn
  rw [List.count_set key EMPTY t a.toNat hn, hget, hne]
  simp only [beq_self_eq_true, if_true, Bool.false_eq_true, if_false]
  omega

theorem insertlinear_count {key : Int} (hkey : 0 ≤ key) {t : List Int}
    (hlen : t.length = 10) :
    (insertlinear key t).2.count EMPTY = t.count EMPTY - 1 := by
  rcases insertlinear_spec hkey hlen with ⟨j, _, _, hj, _, hres⟩ | ⟨hall, hres⟩
  · rw [hres]
    have h := count_EMPTY_set hlen (emod_ten_bounds _).1 (emod_ten_bounds _).2 hj hkey
    show (t.set ((key % 10 + (j - 1)) % 10).toNat key).count EMPTY = t.count EMPTY - 1
    omega
  · rw [hres]
    have hnot : EMPTY ∉ t := by
      intro hmem
      obtain ⟨n, h0, h1, hn⟩ := (mem_iff_readCell hlen EMPTY).mp hmem
      obtain ⟨m, hm1, hm2, hm3⟩ := linear_covers key n h0 h1
      exact hall m hm1 hm2 (hm3 ▸ hn)
    have : t.count EMPTY = 0 := List.count_eq_zero.mpr hnot
    show t.count EMPTY = t.count EMPTY - 1
    omega

theorem insertlinearAll_count (keys : List Int) :
    ∀ t : List Int, t.length = 10 → (∀ k ∈ keys, 0 ≤ k) →
      (insertlinearAll keys t).2.length = 10 ∧
      (insertlinearAll keys t).2.count EMPTY = t.count EMPTY - keys.length := by
  induction keys with
  | nil => intro t hlen _; exact ⟨hlen, by simp [insertlinearAll]⟩
  | cons k rest ih =>
    intro t hlen hnn
    have hk : 0 ≤ k := hnn k (List.mem_cons_self k rest)
    have h := ih (insertlinear k t).2 (insertlinear_length hk hlen)
      (fun x hx => hnn x (List.mem_cons_of_mem k hx))
    simp only [insertlinearAll, List.length_cons]
    refine ⟨h.1, ?_⟩
    rw [h.2, insertlinear_count hk hlen]
    omega

theorem emptyLinear_eq : emptyLinear = [-1, -1, -1, -1, -1, -1, -1, -1, -1, -1] := by decide

theorem emptyQuadratic_eq : emptyQuadratic = [-1, -1, -1, -1, -1, -1, -1, -1, -1, -1] := by
  decide

/-! ## The linear table: insertion -/

/-- C1. On a ten-cell linear table with at least one free cell, `insertlinear`
with a non-negative key returns the least attempt `i` in `1..10` whose cell
`(key mod 10 + (i-1)) mod 10` is free, stores the key in that cell and leaves
every other cell as it was. -/
theorem insertlinear_least_free (linear : List Int) (key : Int)
    (hlen : linear.length = 10) (hkey : 0 ≤ key) (hfree : EMPTY ∈ linear) :
    ∃ i : Int, 1 ≤ i ∧ i ≤ 10 ∧
      readCell linear ((key % 10 + (i - 1)) % 10) = some EMPTY ∧
      (∀ j : Int, 1 ≤ j → j < i →
        readCell linear ((key % 10 + (j - 1)) % 10) ≠ some EMPTY) ∧
      (insertlinear key linear).1 = Outcome.returned i ∧
      (insertlinear key linear).2.length = 10 ∧
      readCell (insertlinear key linear).2 ((key % 10 + (i - 1)) % 10) = some key ∧
      ∀ n : Int, n ≠ (key % 10 + (i - 1)) % 10 →
        readCell (insertlinear key linear).2 n = readCell linear n := by
  rcases insertlinear_spec hkey hlen with ⟨j, hj1, hj2, hj3, hj4, hres⟩ | ⟨hall, _⟩
  · have hb := emod_ten_bounds (key % 10 + (j - 1))
    refine ⟨j, hj1, hj2, hj3, hj4, by rw [hres], insertlinear_length hkey hlen, ?_, ?_⟩
    · rw [hres]
      show readCell (linear.set ((key % 10 + (j - 1)) % 10).toNat key) _ = some key
      rw [readCell_set hlen hb.1 hb.2, if_pos rfl]
    · intro n hn
      rw [hres]
      show readCell (linear.set ((key % 10 + (j - 1)) % 10).toNat key) n = readCell linear n
      rw [readCell_set hlen hb.1 hb.2, if_neg hn]
  · exfalso
    obtain ⟨n, h0, h1, hn⟩ := (mem_iff_readCell hlen EMPTY).mp hfree
    obtain ⟨m, hm1, hm2, hm3⟩ := linear_covers key n h0 h1
    exact hall m hm1 hm2 (hm3 ▸ hn)

/-- Instance of C1: key 13 on the table holding only 3 (in cell 3). -/
theorem insertlinear_least_free_witness :
    ([-1, -1, -1, 3, -1, -1, -1, -1, -1, -1] : List Int).length = 10 ∧ (0 : Int) ≤ 13 ∧
    EMPTY ∈ ([-1, -1, -1, 3, -1, -1, -1, -1, -1, -1] : List Int) ∧
    ∃ i : Int, 1 ≤ i ∧ i ≤ 10 ∧
      readCell [-1, -1, -1, 3, -1, -1, -1, -1, -1, -1] ((13 % 10 + (i - 1)) % 10)
        = some EMPTY ∧
      (∀ j : Int, 1 ≤ j → j < i →
        readCell [-1, -1, -1, 3, -1, -1, -1, -1, -1, -1] ((13 % 10 + (j - 1)) % 10)
          ≠ some EMPTY) ∧
      (insertlinear 13 [-1, -1, -1, 3, -1, -1, -1, -1, -1, -1]).1 = Outcome.returned i ∧
      (insertlinear 13 [-1, -1, -1, 3, -1, -1, -1, -1, -1, -1]).2.length = 10 ∧
      readCell (insertlinear 13 [-1, -1, -1, 3, -1, -1, -1, -1, -1, -1]).2
        ((13 % 10 + (i - 1)) % 10) = some 13 ∧
      ∀ n : Int, n ≠ (13 % 10 + (i - 1)) % 10 →
        readCell (insertlinear 13 [-1, -1, -1, 3, -1, -1, -1, -1, -1, -1]).2 n
          = readCell [-1, -1, -1, 3, -1, -1, -1, -1, -1, -1] n :=
  ⟨by decide, by decide, by decide,
    insertlinear_least_free [-1, -1, -1, 3, -1, -1, -1, -1, -1, -1] 13
      (by decide) (by decide) (by decide)⟩

/-- C2. On a ten-cell linear table and for a non-negative key, `insertlinear`
ends in the `No space in the hashtable` branch exactly when no cell is free,
and otherwise returns a step count in `1..10`; after any ten non-negative keys
(in particular ten keys hashing to one slot) have been inserted into the empty
table, one more insert ends in that branch. -/
theorem insertlinear_noSpace_iff_full (linear : List Int) (key : Int) (keys : List Int)
    (hlen : linear.length = 10) (hkey : 0 ≤ key)
    (hkeys : keys.length = 10) (hnn : ∀ k ∈ keys, 0 ≤ k) :
    ((insertlinear key linear).1 = Outcome.noSpace ↔ EMPTY ∉ linear) ∧
    (EMPTY ∈ linear →
      ∃ i : Int, 1 ≤ i ∧ i ≤ 10 ∧ (insertlinear key linear).1 = Outcome.returned i) ∧
    (insertlinear key (insertlinearAll keys emptyLinear).2).1 = Outcome.noSpace := by
  have hiff : ∀ t : List Int, t.length = 10 →
      ((insertlinear key t).1 = Outcome.noSpace ↔ EMPTY ∉ t) := by
    intro t ht
    rcases insertlinear_spec hkey ht with ⟨j, _, _, hj, _, hres⟩ | ⟨hall, hres⟩
    · constructor
      · intro h; rw [hres] at h; cases h
      · intro h
        exfalso
        exact h ((mem_iff_readCell ht EMPTY).mpr
          ⟨_, (emod_ten_bounds _).1, (emod_ten_bounds _).2, hj⟩)
    · constructor
      · intro _ hmem
        obtain ⟨n, h0, h1, hn⟩ := (mem_iff_readCell ht EMPTY).mp hmem
        obtain ⟨m, hm1, hm2, hm3⟩ := linear_covers key n h0 h1
        exact hall m hm1 hm2 (hm3 ▸ hn)
      · intro _; rw [hres]
  refine ⟨hiff linear hlen, ?_, ?_⟩
  · intro hmem
    rcases insertlinear_spec hkey hlen with ⟨j, hj1, hj2, _, _, hres⟩ | ⟨_, hres⟩
    · exact ⟨j, hj1, hj2, by rw [hres]⟩
    · exact absurd hmem ((hiff linear hlen).mp (by rw [hres]))
  · have hinit : emptyLinear.length = 10 := by decide
    have h := insertlinearAll_count keys emptyLinear hinit hnn
    rw [hiff _ h.1, ← List.count_eq_zero, h.2, hkeys]
    have : emptyLinear.count EMPTY = 10 := by decide
    omega

/-- Instance of C2: the full table built from `3, 13, ..., 93`, then key `103`. -/
theorem insertlinear_noSpace_iff_full_witness :
    ([10, 1, 2, 3, 4, 5, 6, 7, 8, 9] : List Int).length = 10 ∧ (0 : Int) ≤ 103 ∧
    ([3, 13, 23, 33, 43, 53, 63, 73, 83, 93] : List Int).length = 10 ∧
    (∀ k ∈ ([3, 13, 23, 33, 43, 53, 63, 73, 83, 93] : List Int), 0 ≤ k) ∧
    ((insertlinear 103 [10, 1, 2, 3, 4, 5, 6, 7, 8, 9]).1 = Outcome.noSpace ↔
      EMPTY ∉ ([10, 1, 2, 3, 4, 5, 6, 7, 8, 9] : List Int)) ∧
    (EMPTY ∈ ([10, 1, 2, 3, 4, 5, 6, 7, 8, 9] : List Int) →
      ∃ i : Int, 1 ≤ i ∧ i ≤ 10 ∧
        (insertlinear 103 [10, 1, 2, 3, 4, 5, 6, 7, 8, 9]).1 = Outcome.returned i) ∧
    (insertlinear 103
      (insertlinearAll [3, 13, 23, 33, 43, 53, 63, 73, 83, 93] emptyLinear).2).1
        = Outcome.noSpace :=
  ⟨by decide, by decide, by decide, by decide,
    insertlinear_noSpace_iff_full [10, 1, 2, 3, 4, 5, 6, 7, 8, 9] 103
      [3, 13, 23, 33, 43, 53, 63, 73, 83, 93] (by decide) (by decide) (by decide)
      (by decide)⟩

/-! ## The probe tables: search -/

/-- Whenever all ten attempts of a search on a ten-cell table probe occupied
cells none of which holds the (non-negative) key, the loop ends and the function
is left without a `return`: no value, in particular not `-1`, is returned. -/
theorem search_exhausted_noValue (t : List Int) (key : Int)
    (hlen : t.length = 10) (hkey : 0 ≤ key) :
    ((∀ m : Int, 1 ≤ m → m ≤ 10 →
        readCell t ((key % 10 + (m - 1)) % 10) ≠ some EMPTY ∧
        readCell t ((key % 10 + (m - 1)) % 10) ≠ some key) →
      searchlinear key t = (Outcome.noValue, t)) ∧
    ((∀ m : Int, 1 ≤ m → m ≤ 10 →
        readCell t ((key % 10 + (m - 1) * (m - 1)) % 10) ≠ some EMPTY ∧
        readCell t ((key % 10 + (m - 1) * (m - 1)) % 10) ≠ some key) →
      searchquad key t = (Outcome.noValue, t)) := by
  constructor
  · intro hall
    rcases searchlinear_spec hkey hlen with ⟨j, hj1, hj2, _, h | h⟩ | ⟨_, hres⟩
    · exact absurd h.1 (hall j hj1 hj2).1
    · exact absurd h.1 (hall j hj1 hj2).2
    · exact hres
  · intro hall
    rcases searchquad_spec hkey hlen with ⟨j, hj1, hj2, _, h | h⟩ | ⟨_, hres⟩
    · exact absurd h.1 (hall j hj1 hj2).1
    · exact absurd h.1 (hall j hj1 hj2).2
    · exact hres

/-- C3, evaluated on the code.  The driver run on the keys `2 3 6 7 8 1` fills
cells `1, 2, 3, 6, 7, 8` of the quadratic table; its call `searchquad(32)` then
probes only occupied cells, none holding `32`, and leaves the function without
returning `-1` or any other value.  Likewise `searchlinear(20)` on the full
linear table built from the keys `1, ..., 10`. -/
theorem search_exhausted_returns_nothing :
    (insertquadAll [2, 3, 6, 7, 8, 1] emptyQuadratic).2
        = [-1, 1, 2, 3, -1, -1, 6, 7, 8, -1] ∧
    searchquad 32 [-1, 1, 2, 3, -1, -1, 6, 7, 8, -1]
        = (Outcome.noValue, [-1, 1, 2, 3, -1, -1, 6, 7, 8, -1]) ∧
    (searchquad 32 [-1, 1, 2, 3, -1, -1, 6, 7, 8, -1]).1 ≠ Outcome.returned (-1) ∧
    (insertlinearAll [1, 2, 3, 4, 5, 6, 7, 8, 9, 10] emptyLinear).2
        = [10, 1, 2, 3, 4, 5, 6, 7, 8, 9] ∧
    searchlinear 20 [10, 1, 2, 3, 4, 5, 6, 7, 8, 9]
        = (Outcome.noValue, [10, 1, 2, 3, 4, 5, 6, 7, 8, 9]) ∧
    (searchlinear 20 [10, 1, 2, 3, 4, 5, 6, 7, 8, 9]).1 ≠ Outcome.returned (-1) := by
  decide

/-- C4. On a ten-cell linear table and for a non-negative key, if some attempt
`j` in `1..10` probes a free cell and no earlier attempt probes a cell holding
the key, `searchlinear` returns `-1` whatever the later cells hold; so it does
when the cells at `index` and `index+1` hold other keys, the cell at `index+2`
is free and the cell at `index+3` holds the key.  The table is not changed. -/
theorem searchlinear_stops_at_gap (linear : List Int) (key : Int)
    (hlen : linear.length = 10) (hkey : 0 ≤ key) :
    (∀ j : Int, 1 ≤ j → j ≤ 10 →
      readCell linear ((key % 10 + (j - 1)) % 10) = some EMPTY →
      (∀ m : Int, 1 ≤ m → m < j →
        readCell linear ((key % 10 + (m - 1)) % 10) ≠ some key) →
      searchlinear key linear = (Outcome.returned (-1), linear)) ∧
    (∀ a b : Int, a ≠ EMPTY → a ≠ key → b ≠ EMPTY → b ≠ key →
      readCell linear (key % 10) = some a →
      readCell linear ((key % 10 + 1) % 10) = some b →
      readCell linear ((key % 10 + 2) % 10) = some EMPTY →
      readCell linear ((key % 10 + 3) % 10) = some key →
      searchlinear key linear = (Outcome.returned (-1), linear)) := by
  have hne : key ≠ EMPTY := by unfold EMPTY; omega
  have main : ∀ j : Int, 1 ≤ j → j ≤ 10 →
      readCell linear ((key % 10 + (j - 1)) % 10) = some EMPTY →
      (∀ m : Int, 1 ≤ m → m < j →
        readCell linear ((key % 10 + (m - 1)) % 10) ≠ some key) →
      searchlinear key linear = (Outcome.returned (-1), linear) := by
    intro j hj1 hj2 hgap hbefore
    rcases searchlinear_spec hkey hlen with ⟨j2, h1, h2, hprev, h | h⟩ | ⟨hall, _⟩
    · exact h.2
    · exfalso
      rcases lt_trichotomy j2 j with hlt | heq | hgt
      · exact hbefore j2 h1 hlt h.1
      · rw [heq, hgap] at h
        exact hne (Option.some.inj h.1).symm
      · exact (hprev j hj1 hgt).1 hgap
    · exact absurd hgap (hall j hj1 hj2).1
  refine ⟨main, ?_⟩
  intro a b _ hak _ hbk ha hb hgap _
  refine main 3 (by decide) (by decide) (by simpa using hgap) ?_
  intro m hm1 hm3
  have hm : m = 1 ∨ m = 2 := by omega
  rcases hm with rfl | rfl
  · have e : (key % 10 + (1 - 1)) % 10 = key % 10 := by omega
    rw [e, ha]
    exact fun h => hak (Option.some.inj h)
  · have e : (key % 10 + (2 - 1)) % 10 = (key % 10 + 1) % 10 := by omega
    rw [e, hb]
    exact fun h => hbk (Option.some.inj h)

/-- Instance of C4: key `23` with cells 3 and 4 holding `3` and `13`, cell 5 free
and cell 6 holding `23`. -/
theorem searchlinear_stops_at_gap_witness :
    ([-1, -1, -1, 3, 13, -1, 23, -1, -1, -1] : List Int).length = 10 ∧ (0 : Int) ≤ 23 ∧
    readCell [-1, -1, -1, 3, 13, -1, 23, -1, -1, -1] (23 % 10) = some 3 ∧
    readCell [-1, -1, -1, 3, 13, -1, 23, -1, -1, -1] ((23 % 10 + 1) % 10) = some 13 ∧
    readCell [-1, -1, -1, 3, 13, -1, 23, -1, -1, -1] ((23 % 10 + 2) % 10) = some EMPTY ∧
    readCell [-1, -1, -1, 3, 13, -1, 23, -1, -1, -1] ((23 % 10 + 3) % 10) = some 23 ∧
    searchlinear 23 [-1, -1, -1, 3, 13, -1, 23, -1, -1, -1]
      = (Outcome.returned (-1), [-1, -1, -1, 3, 13, -1, 23, -1, -1, -1]) :=
  ⟨by decide, by decide, by decide, by decide, by decide, by decide,
    (searchlinear_stops_at_gap [-1, -1, -1, 3, 13, -1, 23, -1, -1, -1] 23
      (by decide) (by decide)).2 3 13 (by decide) (by decide) (by decide) (by decide)
      (by decide) (by decide) (by decide) (by decide)⟩

/-- C5. On a ten-cell linear table and for a non-negative key, if attempt `i` in
`1..10` is the first whose cell `(key mod 10 + (i-1)) mod 10` holds the key and
no earlier attempt probes a free cell, `searchlinear` returns `i` and the table
is the one it was given. -/
theorem searchlinear_finds_first (linear : List Int) (key : Int) (i : Int)
    (hlen : linear.length = 10) (hkey : 0 ≤ key) (hi1 : 1 ≤ i) (hi2 : i ≤ 10)
    (hfound : readCell linear ((key % 10 + (i - 1)) % 10) = some key)
    (hbefore : ∀ m : Int, 1 ≤ m → m < i →
      readCell linear ((key % 10 + (m - 1)) % 10) ≠ some key ∧
      readCell linear ((key % 10 + (m - 1)) % 10) ≠ some EMPTY) :
    (searchlinear key linear).1 = Outcome.returned i ∧
    (searchlinear key linear).2 = linear := by
  have hne : key ≠ EMPTY := by unfold EMPTY; omega
  rcases searchlinear_spec hkey hlen with ⟨j, h1, h2, hprev, h | h⟩ | ⟨hall, _⟩
  · exfalso
    rcases lt_trichotomy j i with hlt | heq | hgt
    · exact (hbefore j h1 hlt).2 h.1
    · rw [heq, hfound] at h
      exact hne (Option.some.inj h.1)
    · exact (hprev i hi1 hgt).2 hfound
  · rcases lt_trichotomy j i with hlt | heq | hgt
    · exact absurd h.1 (hbefore j h1 hlt).1
    · rw [h.2.2, heq]
      exact ⟨rfl, rfl⟩
    · exact absurd hfound (hprev i hi1 hgt).2
  · exact absurd hfound (hall i hi1 hi2).2

/-- Instance of C5: key `23` found by the third attempt. -/
theorem searchlinear_finds_first_witness :
    ([-1, -1, -1, 3, 13, 23, -1, -1, -1, -1] : List Int).length = 10 ∧ (0 : Int) ≤ 23 ∧
    (1 : Int) ≤ 3 ∧ (3 : Int) ≤ 10 ∧
    readCell [-1, -1, -1, 3, 13, 23, -1, -1, -1, -1] ((23 % 10 + (3 - 1)) % 10) = some 23 ∧
    (searchlinear 23 [-1, -1, -1, 3, 13, 23, -1, -1, -1, -1]).1 = Outcome.returned 3 ∧
    (searchlinear 23 [-1, -1, -1, 3, 13, 23, -1, -1, -1, -1]).2
      = [-1, -1, -1, 3, 13, 23, -1, -1, -1, -1] :=
  ⟨by decide, by decide, by decide, by decide, by decide,
    searchlinear_finds_first [-1, -1, -1, 3, 13, 23, -1, -1, -1, -1] 23 3
      (by decide) (by decide) (by decide) (by decide) (by decide)
      (by
        intro m hm1 hm3
        have hm : m = 1 ∨ m = 2 := by omega
        rcases hm with rfl | rfl <;> decide)⟩

/-! ## The quadratic table: insertion -/

/-- C6. On a ten-cell quadratic table and for a non-negative key such that some
attempt in `1..10` probes a free cell, `insertquad` returns the least attempt
`i` whose cell `(key mod 10 + (i-1)^2) mod 10` is free, stores the key in that
cell and leaves every other cell as it was.  On the empty table, `3` goes to
cell 3 in one step and then `13` to cell 4 in two steps. -/
theorem insertquad_least_free (quadratic : List Int) (key : Int)
    (hlen : quadratic.length = 10) (hkey : 0 ≤ key)
    (hfree : ∃ j : Int, 1 ≤ j ∧ j ≤ 10 ∧
      readCell quadratic ((key % 10 + (j - 1) ^ 2) % 10) = some EMPTY) :
    (∃ i : Int, 1 ≤ i ∧ i ≤ 10 ∧
      readCell quadratic ((key % 10 + (i - 1) ^ 2) % 10) = some EMPTY ∧
      (∀ j : Int, 1 ≤ j → j < i →
        readCell quadratic ((key % 10 + (j - 1) ^ 2) % 10) ≠ some EMPTY) ∧
      (insertquad key quadratic).1 = Outcome.returned i ∧
      (insertquad key quadratic).2.length = 10 ∧
      readCell (insertquad key quadratic).2 ((key % 10 + (i - 1) ^ 2) % 10) = some key ∧
      ∀ n : Int, n ≠ (key % 10 + (i - 1) ^ 2) % 10 →
        readCell (insertquad key quadratic).2 n = readCell quadratic n) ∧
    insertquad 3 emptyQuadratic
      = (Outcome.returned 1, [-1, -1, -1, 3, -1, -1, -1, -1, -1, -1]) ∧
    insertquad 13 (insertquad 3 emptyQuadratic).2
      = (Outcome.returned 2, [-1, -1, -1, 3, 13, -1, -1, -1, -1, -1]) := by
  refine ⟨?_, by decide, by decide⟩
  simp only [sq] at hfree ⊢
  rcases insertquad_spec hkey hlen with ⟨j, hj1, hj2, hj3, hj4, hres⟩ | ⟨hall, _⟩
  · have hb := emod_ten_bounds (key % 10 + (j - 1) * (j - 1))
    refine ⟨j, hj1, hj2, hj3, hj4, by rw [hres], ?_, ?_, ?_⟩
    · rw [hres]; simpa using hlen
    · rw [hres]
      show readCell (quadratic.set ((key % 10 + (j - 1) * (j - 1)) % 10).toNat key) _
        = some key
      rw [readCell_set hlen hb.1 hb.2, if_pos rfl]
    · intro n hn
      rw [hres]
      show readCell (quadratic.set ((key % 10 + (j - 1) * (j - 1)) % 10).toNat key) n
        = readCell quadratic n
      rw [readCell_set hlen hb.1 hb.2, if_neg hn]
  · obtain ⟨j, hj1, hj2, hj3⟩ := hfree
    exact absurd hj3 (hall j hj1 hj2)

/-- Instance of C6: key `13` on the quadratic table holding `3` in cell 3. -/
theorem insertquad_least_free_witness :
    ([-1, -1, -1, 3, -1, -1, -1, -1, -1, -1] : List Int).length = 10 ∧ (0 : Int) ≤ 13 ∧
    readCell ([-1, -1, -1, 3, -1, -1, -1, -1, -1, -1] : List Int)
      ((13 % 10 + (2 - 1) ^ 2) % 10) = some EMPTY ∧
    (insertquad 13 [-1, -1, -1, 3, -1, -1, -1, -1, -1, -1]).1 = Outcome.returned 2 ∧
    ∃ i : Int, 1 ≤ i ∧ i ≤ 10 ∧
      readCell ([-1, -1, -1, 3, -1, -1, -1, -1, -1, -1] : List Int)
        ((13 % 10 + (i - 1) ^ 2) % 10) = some EMPTY ∧
      (∀ j : Int, 1 ≤ j → j < i →
        readCell ([-1, -1, -1, 3, -1, -1, -1, -1, -1, -1] : List Int)
          ((13 % 10 + (j - 1) ^ 2) % 10) ≠ some EMPTY) ∧
      (insertquad 13 [-1, -1, -1, 3, -1, -1, -1, -1, -1, -1]).1 = Outcome.returned i ∧
      (insertquad 13 [-1, -1, -1, 3, -1, -1, -1, -1, -1, -1]).2.length = 10 ∧
      readCell (insertquad 13 [-1, -1, -1, 3, -1, -1, -1, -1, -1, -1]).2
        ((13 % 10 + (i - 1) ^ 2) % 10) = some 13 ∧
      ∀ n : Int, n ≠ (13 % 10 + (i - 1) ^ 2) % 10 →
        readCell (insertquad 13 [-1, -1, -1, 3, -1, -1, -1, -1, -1, -1]).2 n
          = readCell [-1, -1, -1, 3, -1, -1, -1, -1, -1, -1] n :=
  ⟨by decide, by decide, by decide, by decide,
    (insertquad_least_free [-1, -1, -1, 3, -1, -1, -1, -1, -1, -1] 13
      (by decide) (by decide) ⟨2, by decide, by decide, by decide⟩).1⟩

/-! ## The chaining table -/

theorem hash_bounds {key : Int} (h : 0 ≤ key) : 0 ≤ hash key ∧ hash key < 10 := by
  rw [hash_of_nonneg h]
  exact emod_ten_bounds key

/-- One `insertchain` on a ten-slot table, for a non-negative key. -/
theorem insertchain_spec {key : Int} (hkey : 0 ≤ key) {ht : List (List Int)}
    (hlen : ht.length = 10) :
    ∃ head, readCell ht (hash key) = some head ∧
      insertchain key ht = some (ht.set (hash key).toNat (key :: head)) := by
  obtain ⟨head, hhead⟩ := readCell_of_lt hlen (hash_bounds hkey).1 (hash_bounds hkey).2
  exact ⟨head, hhead, by simp [insertchain, hhead]⟩

/-- The table after a run of `insertchain` calls: every slot got, in front of its
old list, the inserted keys hashing to it, the latest first. -/
theorem insertchainAll_spec (keys : List Int) :
    ∀ ht : List (List Int), ht.length = 10 → (∀ k ∈ keys, 0 ≤ k) →
      ∃ ht2, insertchainAll keys ht = some ht2 ∧ ht2.length = 10 ∧
        ∀ (n : Int) (l : List Int), readCell ht n = some l →
          readCell ht2 n
            = some ((keys.filter (fun x => decide (hash x = n))).reverse ++ l) := by
  induction keys with
  | nil =>
    intro ht hlen _
    exact ⟨ht, rfl, hlen, fun n l h => by simpa using h⟩
  | cons k rest ih =>
    intro ht hlen hnn
    have hk : 0 ≤ k := hnn k (List.mem_cons_self k rest)
    obtain ⟨head, hhead, hins⟩ := insertchain_spec hk hlen
    have hlen1 : (ht.set (hash k).toNat (k :: head)).length = 10 := by simpa using hlen
    obtain ⟨ht2, h1, h2, h3⟩ := ih _ hlen1 (fun x hx => hnn x (List.mem_cons_of_mem k hx))
    refine ⟨ht2, by simp only [insertchainAll, hins, h1], h2, ?_⟩
    intro n l hl
    have hread := readCell_set hlen (hash_bounds hk).1 (hash_bounds hk).2 (k :: head) n
    by_cases hn : n = hash k
    · subst hn
      rw [if_pos rfl] at hread
      rw [hhead] at hl
      cases hl
      rw [h3 _ _ hread]
      simp [List.filter_cons]
    · rw [if_neg hn, hl] at hread
      rw [h3 _ _ hread]
      have : ¬ hash k = n := fun h => hn h.symm
      simp [List.filter_cons, this]

theorem search_chainLoop_not_mem (key : Int) (l : List Int) :
    ∀ i : Int, key ∉ l → i + l.length ≤ INT_MAX →
      search_chainLoop key l i = Outcome.returned (-1) := by
  induction l with
  | nil => intro i _ _; rfl
  | cons a rest ih =>
    intro i h hb
    have ha : a ≠ key := fun e => h (e ▸ List.mem_cons_self a rest)
    have hr : key ∉ rest := fun e => h (List.mem_cons_of_mem a e)
    rw [List.length_cons] at hb
    have hi : i < INT_MAX := by push_cast at hb; omega
    simp only [search_chainLoop, if_neg ha, if_pos hi]
    exact ih (i + 1) hr (by push_cast at hb; omega)

theorem search_chainLoop_first (key : Int) (front back : List Int) :
    ∀ i : Int, key ∉ front → i + front.length ≤ INT_MAX →
      search_chainLoop key (front ++ key :: back) i
        = Outcome.returned (i + front.length) := by
  induction front with
  | nil => intro i _ _; simp [search_chainLoop]
  | cons a rest ih =>
    intro i h hb
    have ha : a ≠ key := fun e => h (e ▸ List.mem_cons_self a rest)
    have hr : key ∉ rest := fun e => h (List.mem_cons_of_mem a e)
    rw [List.length_cons] at hb ⊢
    have hi : i < INT_MAX := by push_cast at hb; omega
    rw [List.cons_append]
    simp only [search_chainLoop, if_neg ha, if_pos hi]
    rw [ih (i + 1) hr (by push_cast at hb; omega)]
    push_cast
    congr 1
    omega

/-- Walking more nodes that do not hold the key than the counter has room for
ends in the overflow of `i++`. -/
theorem search_chainLoop_overflow (key : Int) (front back : List Int) :
    ∀ i : Int, key ∉ front → i ≤ INT_MAX → INT_MAX < i + front.length →
      search_chainLoop key (front ++ back) i = Outcome.counterOverflow := by
  induction front with
  | nil =>
    intro i _ h1 h2
    simp only [List.length_nil, Nat.cast_zero, add_zero] at h2
    omega
  | cons a rest ih =>
    intro i h h1 h2
    have ha : a ≠ key := fun e => h (e ▸ List.mem_cons_self a rest)
    have hr : key ∉ rest := fun e => h (List.mem_cons_of_mem a e)
    rw [List.length_cons] at h2
    rw [List.cons_append]
    by_cases hi : i < INT_MAX
    · simp only [search_chainLoop, if_neg ha, if_pos hi]
      exact ih (i + 1) hr (by omega) (by push_cast at h2; omega)
    · simp only [search_chainLoop, if_neg ha, if_neg hi]

theorem staticChains_read {n : Int} {l : List Int} (h : readCell staticChains n = some l) :
    l = [] := by
  unfold readCell at h
  split at h
  · have hmem : l ∈ staticChains := List.mem_iff_getElem?.mpr ⟨_, h⟩
    exact List.eq_of_mem_replicate hmem
  · cases h

/-- A list containing `k` splits at the last occurrence of `k`. -/
theorem exists_last_split (k : Int) (keys : List Int) (h : k ∈ keys) :
    ∃ before after : List Int, keys = before ++ k :: after ∧ k ∉ after := by
  induction keys with
  | nil => cases h
  | cons a rest ih =>
    by_cases hr : k ∈ rest
    · obtain ⟨before, after, h1, h2⟩ := ih hr
      exact ⟨a :: before, after, by rw [h1, List.cons_append], h2⟩
    · have hka : k = a := by
        rcases List.mem_cons.mp h with e | e
        · exact e
        · exact absurd e hr
      exact ⟨[], rest, by rw [hka, List.nil_append], hr⟩

/-- After a run of `insertchain` calls on the table of empty chains,
`search_chain k` walks the inserted keys that hash to the slot of `k`, the latest
first, counting from `1`. -/
theorem search_chain_eq_loop (keys : List Int) (k : Int)
    (hkeys : ∀ x ∈ keys, 0 ≤ x) (hk : 0 ≤ k) :
    ∃ ht, insertchainAll keys staticChains = some ht ∧
      search_chain k ht = search_chainLoop k
        (keys.filter (fun x => decide (hash x = hash k))).reverse 1 := by
  obtain ⟨ht, h1, _, h3⟩ := insertchainAll_spec keys staticChains (by decide) hkeys
  obtain ⟨l0, hl0⟩ := readCell_of_lt (t := staticChains) (by decide)
    (hash_bounds hk).1 (hash_bounds hk).2
  have hnil := staticChains_read hl0
  subst hnil
  have hread := h3 _ _ hl0
  rw [List.append_nil] at hread
  exact ⟨ht, h1, by simp only [search_chain, hread]⟩

/-- The chain of the slot of `k` when `k` was last inserted before `after`. -/
theorem chain_of_split (k : Int) (before after : List Int) :
    ((before ++ k :: after).filter (fun x => decide (hash x = hash k))).reverse
      = (after.filter (fun x => decide (hash x = hash k))).reverse
        ++ k :: (before.filter (fun x => decide (hash x = hash k))).reverse := by
  simp [List.filter_append, List.filter_cons]

/-- C7, as the code has it.  After any sequence of non-negative keys has been
inserted with `insertchain` into the table of empty chains, and for a
non-negative `k`: if `k` was never inserted and fewer than `2^31 - 1` of the
inserted keys hash to the slot of `k`, `search_chain k` returns `-1`; if `k` was
inserted and fewer than `2^31 - 1` of the keys inserted after its last insertion
hash to its slot, `search_chain k` returns `1` plus their number.  From
`2^31 - 1` such keys on, the `int` counter overflows instead.  After
`5, 15, 25`: `search_chain 25` is `1` and `search_chain 5` is `3`. -/
theorem search_chain_after_inserts (keys : List Int) (k : Int)
    (hkeys : ∀ x ∈ keys, 0 ≤ x) (hk : 0 ≤ k) :
    (∃ ht, insertchainAll keys staticChains = some ht ∧
      (k ∉ keys → keys.countP (fun x => decide (hash x = hash k)) < 2147483647 →
        search_chain k ht = Outcome.returned (-1)) ∧
      (k ∉ keys → 2147483647 ≤ keys.countP (fun x => decide (hash x = hash k)) →
        search_chain k ht = Outcome.counterOverflow) ∧
      (k ∈ keys → ∃ before after : List Int, keys = before ++ k :: after ∧ k ∉ after) ∧
      (∀ before after : List Int, keys = before ++ k :: after → k ∉ after →
        after.countP (fun x => decide (hash x = hash k)) < 2147483647 →
        search_chain k ht
          = Outcome.returned (1 + after.countP (fun x => decide (hash x = hash k)))) ∧
      (∀ before after : List Int, keys = before ++ k :: after → k ∉ after →
        2147483647 ≤ after.countP (fun x => decide (hash x = hash k)) →
        search_chain k ht = Outcome.counterOverflow)) ∧
    (insertchainAll [5, 15, 25] staticChains).map (search_chain 25)
      = some (Outcome.returned 1) ∧
    (insertchainAll [5, 15, 25] staticChains).map (search_chain 5)
      = some (Outcome.returned 3) := by
  refine ⟨?_, by decide, by decide⟩
  obtain ⟨ht, h1, hsearch⟩ := search_chain_eq_loop keys k hkeys hk
  have hmemrev : ∀ l : List Int, k ∉ l →
      k ∉ (l.filter (fun x => decide (hash x = hash k))).reverse :=
    fun l hnot hmem => hnot (List.mem_filter.mp (List.mem_reverse.mp hmem)).1
  refine ⟨ht, h1, ?_, ?_, exists_last_split k keys, ?_, ?_⟩
  · intro hnot hb
    rw [hsearch]
    apply search_chainLoop_not_mem _ _ _ (hmemrev keys hnot)
    rw [List.length_reverse, ← List.countP_eq_length_filter]
    unfold INT_MAX
    omega
  · intro hnot hb
    rw [hsearch]
    have h := search_chainLoop_overflow k
      (keys.filter (fun x => decide (hash x = hash k))).reverse [] 1 (hmemrev keys hnot)
      (by decide)
      (by rw [List.length_reverse, ← List.countP_eq_length_filter]; unfold INT_MAX; omega)
    rwa [List.append_nil] at h
  · intro before after hsplit hnot hb
    rw [hsearch, hsplit, chain_of_split, search_chainLoop_first _ _ _ _ (hmemrev after hnot),
      List.length_reverse, List.countP_eq_length_filter]
    rw [List.length_reverse, ← List.countP_eq_length_filter]
    unfold INT_MAX
    omega
  · intro before after hsplit hnot hb
    rw [hsearch, hsplit, chain_of_split]
    apply search_chainLoop_overflow _ _ _ _ (hmemrev after hnot) (by decide)
    rw [List.length_reverse, ← List.countP_eq_length_filter]
    unfold INT_MAX
    omega

/-- Instance of C7: the keys `5, 15, 7, 25, 35` and the search for `15`. -/
theorem search_chain_after_inserts_witness :
    (∀ x ∈ ([5, 15, 7, 25, 35] : List Int), 0 ≤ x) ∧ (0 : Int) ≤ 15 ∧
    (insertchainAll [5, 15, 7, 25, 35] staticChains).map (search_chain 15)
      = some (Outcome.returned 3) ∧
    ∃ ht, insertchainAll [5, 15, 7, 25, 35] staticChains = some ht ∧
      (15 ∉ ([5, 15, 7, 25, 35] : List Int) →
        ([5, 15, 7, 25, 35] : List Int).countP (fun x => decide (hash x = hash 15))
          < 2147483647 →
        search_chain 15 ht = Outcome.returned (-1)) ∧
      (15 ∉ ([5, 15, 7, 25, 35] : List Int) →
        2147483647
          ≤ ([5, 15, 7, 25, 35] : List Int).countP (fun x => decide (hash x = hash 15)) →
        search_chain 15 ht = Outcome.counterOverflow) ∧
      (15 ∈ ([5, 15, 7, 25, 35] : List Int) → ∃ before after : List Int,
        [5, 15, 7, 25, 35] = before ++ 15 :: after ∧ 15 ∉ after) ∧
      (∀ before after : List Int, [5, 15, 7, 25, 35] = before ++ 15 :: after →
        15 ∉ after →
        after.countP (fun x => decide (hash x = hash 15)) < 2147483647 →
        search_chain 15 ht
          = Outcome.returned (1 + after.countP (fun x => decide (hash x = hash 15)))) ∧
      (∀ before after : List Int, [5, 15, 7, 25, 35] = before ++ 15 :: after →
        15 ∉ after →
        2147483647 ≤ after.countP (fun x => decide (hash x = hash 15)) →
        search_chain 15 ht = Outcome.counterOverflow) :=
  ⟨by decide, by decide, by decide,
    (search_chain_after_inserts [5, 15, 7, 25, 35] 15 (by decide) (by decide)).1⟩

/-- C7 as stated fails on the code.  Insert `5` and then `2147483647` times the
key `15`, all non-negative and all of slot 5; `5` is the first key, so the claim
gives `search_chain 5` the value `1 + 2147483647`.  The walk passes
`2147483647` nodes holding `15`, and the increment of `i` at `INT_MAX` overflows
before the node holding `5` is reached: no step count is returned. -/
theorem search_chain_counter_overflows :
    (∀ x ∈ (5 : Int) :: List.replicate 2147483647 15, 0 ≤ x) ∧
    (5 : Int) :: List.replicate 2147483647 15 = [] ++ 5 :: List.replicate 2147483647 15 ∧
    (5 : Int) ∉ List.replicate 2147483647 (15 : Int) ∧
    ∃ ht, insertchainAll (5 :: List.replicate 2147483647 15) staticChains = some ht ∧
      search_chain 5 ht = Outcome.counterOverflow ∧
      search_chain 5 ht ≠ Outcome.returned
        (1 + (List.replicate 2147483647 (15 : Int)).countP
          (fun x => decide (hash x = hash 5))) := by
  have hmem : ∀ x ∈ List.replicate 2147483647 (15 : Int), x = 15 :=
    fun x hx => List.eq_of_mem_replicate hx
  have hnn : ∀ x ∈ (5 : Int) :: List.replicate 2147483647 15, 0 ≤ x := by
    intro x hx
    rcases List.mem_cons.mp hx with e | e
    · rw [e]; decide
    · rw [hmem x e]; decide
  have hnot : (5 : Int) ∉ List.replicate 2147483647 (15 : Int) := by
    intro h
    have := hmem 5 h
    omega
  refine ⟨hnn, rfl, hnot, ?_⟩
  obtain ⟨ht, h1, hsearch⟩ := search_chain_eq_loop _ 5 hnn (by decide)
  have hover : search_chain 5 ht = Outcome.counterOverflow := by
    rw [hsearch]
    have hsplit := chain_of_split 5 [] (List.replicate 2147483647 15)
    rw [List.nil_append] at hsplit
    rw [hsplit]
    have hall : (List.replicate 2147483647 (15 : Int)).filter
        (fun x => decide (hash x = hash 5)) = List.replicate 2147483647 15 := by
      rw [List.filter_eq_self]
      intro a ha
      rw [hmem a ha]
      decide
    rw [hall]
    apply search_chainLoop_overflow 5 _ _ 1
    · intro h
      exact hnot (List.mem_reverse.mp h)
    · decide
    · rw [List.length_reverse, List.length_replicate]
      decide
  refine ⟨ht, h1, hover, ?_⟩
  rw [hover]
  exact fun h => Outcome.noConfusion h

/-- C8. In every chaining table reached from the table of empty chains by
`insertchain` calls with non-negative keys, each key `k` in the list of slot `i`
has `k mod 10 = i`; and one `insertchain key` on a ten-slot table puts `key` in
front of the list at slot `key mod 10` and changes no other slot. -/
theorem insertchain_slot_invariant (keys : List Int) (hashtable : List (List Int))
    (key : Int) (hkeys : ∀ x ∈ keys, 0 ≤ x) (hlen : hashtable.length = 10)
    (hkey : 0 ≤ key) :
    (∃ ht, insertchainAll keys staticChains = some ht ∧ ht.length = 10 ∧
      ∀ (i : Int) (chain : List Int), readCell ht i = some chain →
        ∀ k ∈ chain, k % 10 = i) ∧
    (∃ head ht1, readCell hashtable (key % 10) = some head ∧
      insertchain key hashtable = some ht1 ∧ ht1.length = 10 ∧
      readCell ht1 (key % 10) = some (key :: head) ∧
      ∀ n : Int, n ≠ key % 10 → readCell ht1 n = readCell hashtable n) := by
  constructor
  · obtain ⟨ht, h1, h2, h3⟩ := insertchainAll_spec keys staticChains (by decide) hkeys
    refine ⟨ht, h1, h2, ?_⟩
    intro i chain hchain k hmem
    have hi : 0 ≤ i ∧ i < 10 := by
      by_contra hcon
      rw [readCell_eq_none h2 (by omega)] at hchain
      cases hchain
    obtain ⟨l0, hl0⟩ := readCell_of_lt (t := staticChains) (by decide) hi.1 hi.2
    have hnil := staticChains_read hl0
    subst hnil
    rw [h3 _ _ hl0, List.append_nil] at hchain
    cases hchain
    have hk := List.mem_filter.mp (List.mem_reverse.mp hmem)
    have hk2 : hash k = i := of_decide_eq_true hk.2
    rw [← hk2, hash_of_nonneg (hkeys k hk.1)]
  · obtain ⟨head, hhead, hins⟩ := insertchain_spec hkey hlen
    have hb := hash_bounds hkey
    rw [hash_of_nonneg hkey] at hhead hins hb
    refine ⟨head, _, hhead, hins, by simpa using hlen, ?_, ?_⟩
    · rw [readCell_set hlen hb.1 hb.2, if_pos rfl]
    · intro n hn
      rw [readCell_set hlen hb.1 hb.2, if_neg hn]

/-- Instance of C8: the table built from `5, 15, 7`, and the insertion of `25`. -/
theorem insertchain_slot_invariant_witness :
    (∀ x ∈ ([5, 15, 7] : List Int), 0 ≤ x) ∧
    ([[], [], [], [], [], [15, 5], [], [7], [], []] : List (List Int)).length = 10 ∧
    (0 : Int) ≤ 25 ∧
    insertchainAll [5, 15, 7] staticChains
      = some [[], [], [], [], [], [15, 5], [], [7], [], []] ∧
    insertchain 25 [[], [], [], [], [], [15, 5], [], [7], [], []]
      = some [[], [], [], [], [], [25, 15, 5], [], [7], [], []] ∧
    (∃ ht, insertchainAll [5, 15, 7] staticChains = some ht ∧ ht.length = 10 ∧
      ∀ (i : Int) (chain : List Int), readCell ht i = some chain →
        ∀ k ∈ chain, k % 10 = i) ∧
    (∃ head ht1,
      readCell [[], [], [], [], [], [15, 5], [], [7], [], []] (25 % 10) = some head ∧
      insertchain 25 [[], [], [], [], [], [15, 5], [], [7], [], []] = some ht1 ∧
      ht1.length = 10 ∧
      readCell ht1 (25 % 10) = some (25 :: head) ∧
      ∀ n : Int, n ≠ 25 % 10 →
        readCell ht1 n = readCell [[], [], [], [], [], [15, 5], [], [7], [], []] n) :=
  ⟨by decide, by decide, by decide, by decide, by decide,
    insertchain_slot_invariant [5, 15, 7] [[], [], [], [], [], [15, 5], [], [7], [], []] 25
      (by decide) (by decide) (by decide)⟩

/-! ## Runs of colliding keys in the linear table -/

/-- Inserting keys of one slot `h` into a linear table whose cells `h, h+1, ...`
(mod 10) are occupied for the first `j0` offsets and free from offset `j0` on:
the `q`-th key takes `j0 + q + 1` steps and lands at offset `j0 + q`, and the
cells at the other offsets keep their contents. -/
theorem insertlinearAll_run (h : Int) (keys : List Int) :
    ∀ (t : List Int) (j0 : Nat), t.length = 10 →
      (∀ k ∈ keys, 0 ≤ k ∧ k % 10 = h) → j0 + keys.length ≤ 10 →
      (∀ p : Nat, p < j0 → readCell t ((h + (p : Int)) % 10) ≠ some EMPTY) →
      (∀ p : Nat, j0 ≤ p → p < 10 → readCell t ((h + (p : Int)) % 10) = some EMPTY) →
      (insertlinearAll keys t).1
          = (List.range keys.length).map
              (fun q : Nat => Outcome.returned ((j0 : Int) + (q : Int) + 1)) ∧
      (∀ q : Nat, q < keys.length →
        readCell (insertlinearAll keys t).2 ((h + ((j0 + q : Nat) : Int)) % 10) = keys[q]?) ∧
      (∀ p : Nat, p < 10 → p < j0 ∨ j0 + keys.length ≤ p →
        readCell (insertlinearAll keys t).2 ((h + (p : Int)) % 10)
          = readCell t ((h + (p : Int)) % 10)) := by
  induction keys with
  | nil =>
    intro t j0 _ _ _ _ _
    exact ⟨rfl, fun q hq => absurd hq (Nat.not_lt_zero q), fun p _ _ => rfl⟩
  | cons k rest ih =>
    intro t j0 hlen hkeys hsum hocc hfree
    have hk := hkeys k (List.mem_cons_self k rest)
    have hk0 : 0 ≤ k := hk.1
    have hkh : k % 10 = h := hk.2
    have hkne : k ≠ EMPTY := by unfold EMPTY; omega
    simp only [List.length_cons] at hsum
    have hj0 : j0 < 10 := by omega
    have hres : insertlinear k t
        = (Outcome.returned ((j0 : Int) + 1), t.set ((h + (j0 : Int)) % 10).toNat k) := by
      rcases insertlinear_spec hk0 hlen with ⟨j, hj1, hj2, hj3, hj4, hr⟩ | ⟨hall, _⟩
      · rw [hkh] at hj3 hj4 hr
        have hge : (j0 : Int) + 1 ≤ j := by
          by_contra hcon
          have hp := hocc (j - 1).toNat (by omega)
          have e : (((j - 1).toNat : Nat) : Int) = j - 1 := by omega
          rw [e] at hp
          exact hp hj3
        have hle : j ≤ (j0 : Int) + 1 := by
          by_contra hcon
          have hq := hj4 ((j0 : Int) + 1) (by omega) (by omega)
          have e : (j0 : Int) + 1 - 1 = (j0 : Int) := by omega
          rw [e] at hq
          exact hq (hfree j0 (le_refl j0) hj0)
        have hj : j = (j0 : Int) + 1 := by omega
        rw [hr, hj]
        have e : (j0 : Int) + 1 - 1 = (j0 : Int) := by omega
        rw [e]
      · exfalso
        have hq := hall ((j0 : Int) + 1) (by omega) (by omega)
        rw [hkh] at hq
        have e : (j0 : Int) + 1 - 1 = (j0 : Int) := by omega
        rw [e] at hq
        exact hq (hfree j0 (le_refl j0) hj0)
    have hb := emod_ten_bounds (h + (j0 : Int))
    have hread : ∀ n : Int, readCell (t.set ((h + (j0 : Int)) % 10).toNat k) n
        = if n = (h + (j0 : Int)) % 10 then some k else readCell t n :=
      fun n => readCell_set hlen hb.1 hb.2 k n
    have hlen1 : (t.set ((h + (j0 : Int)) % 10).toNat k).length = 10 := by simpa using hlen
    have hne : ∀ p : Nat, p < 10 → p ≠ j0 →
        (h + (p : Int)) % 10 ≠ (h + (j0 : Int)) % 10 := by
      intro p hp hpj
      omega
    obtain ⟨ih1, ih2, ih3⟩ := ih (t.set ((h + (j0 : Int)) % 10).toNat k) (j0 + 1) hlen1
      (fun x hx => hkeys x (List.mem_cons_of_mem k hx)) (by omega)
      (by
        intro p hp
        rw [hread]
        by_cases hpj : p = j0
        · rw [hpj, if_pos rfl]
          exact fun e => hkne (Option.some.inj e)
        · rw [if_neg (hne p (by omega) hpj)]
          exact hocc p (by omega))
      (by
        intro p hp1 hp2
        rw [hread, if_neg (hne p hp2 (by omega))]
        exact hfree p (by omega) hp2)
    simp only [insertlinearAll, hres, List.length_cons]
    refine ⟨?_, ?_, ?_⟩
    · rw [ih1, List.range_succ_eq_map, List.map_cons, List.map_map]
      refine congrArg₂ List.cons (by simp) (List.map_congr_left ?_)
      intro q _
      simp only [Function.comp_apply, Nat.succ_eq_add_one]
      push_cast
      congr 1
      omega
    · intro q hq
      cases q with
      | zero =>
        rw [Nat.add_zero, ih3 j0 hj0 (Or.inl (by omega)), hread, if_pos rfl,
          List.getElem?_cons_zero]
      | succ q2 =>
        have := ih2 q2 (by omega)
        rw [List.getElem?_cons_succ, ← this]
        congr 2
        push_cast
        omega
    · intro p hp hcase
      rw [ih3 p hp (by omega), hread, if_neg (hne p hp (by omega))]

/-- C9. For at most ten non-negative keys that all hash to the slot `h`,
inserting them in order into the empty linear table returns the step counts
`1, 2, ..., m`, places the key of position `j` (counted from `0`) in cell
`(h + j) mod 10`, and leaves the remaining cells free; for `3, 13, 23` the steps
are `1, 2, 3` and the cells `3, 4, 5`. -/
theorem insertlinear_same_slot_run (keys : List Int) (h : Int)
    (hm : keys.length ≤ 10) (hkeys : ∀ k ∈ keys, 0 ≤ k ∧ hash k = h) :
    (insertlinearAll keys emptyLinear).1
        = (List.range keys.length).map (fun j : Nat => Outcome.returned ((j : Int) + 1)) ∧
    (∀ j : Nat, j < keys.length →
      readCell (insertlinearAll keys emptyLinear).2 ((h + (j : Int)) % 10) = keys[j]?) ∧
    (∀ j : Nat, keys.length ≤ j → j < 10 →
      readCell (insertlinearAll keys emptyLinear).2 ((h + (j : Int)) % 10) = some EMPTY) ∧
    insertlinearAll [3, 13, 23] emptyLinear
      = ([Outcome.returned 1, Outcome.returned 2, Outcome.returned 3],
          [-1, -1, -1, 3, 13, 23, -1, -1, -1, -1]) := by
  have hfree : ∀ p : Nat, 0 ≤ p → p < 10 →
      readCell emptyLinear ((h + (p : Int)) % 10) = some EMPTY := by
    intro p _ _
    obtain ⟨c, hc⟩ := readCell_of_lt (t := emptyLinear) (by decide)
      (emod_ten_bounds (h + (p : Int))).1 (emod_ten_bounds (h + (p : Int))).2
    have hmem : c ∈ emptyLinear :=
      (mem_iff_readCell (by decide) c).mpr ⟨_, (emod_ten_bounds _).1, (emod_ten_bounds _).2, hc⟩
    rw [emptyLinear_eq] at hmem
    have : c = EMPTY := by simpa [EMPTY] using hmem
    rw [hc, this]
  have hmod : ∀ k ∈ keys, 0 ≤ k ∧ k % 10 = h :=
    fun k hk => ⟨(hkeys k hk).1, hash_of_nonneg (hkeys k hk).1 ▸ (hkeys k hk).2⟩
  obtain ⟨h1, h2, h3⟩ := insertlinearAll_run h keys emptyLinear 0 (by decide) hmod
    (by omega) (fun p hp => absurd hp (Nat.not_lt_zero p)) hfree
  refine ⟨?_, ?_, ?_, by decide⟩
  · rw [h1]
    refine List.map_congr_left ?_
    intro q _
    simp
  · intro j hj
    have := h2 j hj
    rwa [Nat.zero_add] at this
  · intro j hj1 hj2
    rw [h3 j hj2 (Or.inr (by omega))]
    exact hfree j (Nat.zero_le j) hj2

/-- Instance of C9: the keys `7, 17, 27, 37`, whose run wraps past cell 9. -/
theorem insertlinear_same_slot_run_witness :
    ([7, 17, 27, 37] : List Int).length ≤ 10 ∧
    (∀ k ∈ ([7, 17, 27, 37] : List Int), 0 ≤ k ∧ hash k = 7) ∧
    insertlinearAll [7, 17, 27, 37] emptyLinear
      = ([Outcome.returned 1, Outcome.returned 2, Outcome.returned 3, Outcome.returned 4],
          [37, -1, -1, -1, -1, -1, -1, 7, 17, 27]) ∧
    (insertlinearAll [7, 17, 27, 37] emptyLinear).1
      = (List.range ([7, 17, 27, 37] : List Int).length).map
          (fun j : Nat => Outcome.returned ((j : Int) + 1)) :=
  ⟨by decide, by decide, by decide,
    (insertlinear_same_slot_run [7, 17, 27, 37] 7 (by decide) (by decide)).1⟩

/-! ## Coverage of the quadratic probe sequence -/

/-- Every attempt of the quadratic sequence lands on one of six offsets. -/
theorem quad_offset_of_attempt (h m : Int) (hm1 : 1 ≤ m) (hm2 : m ≤ 10) :
    ∃ d : Int, d ∈ ([0, 1, 4, 5, 6, 9] : List Int) ∧
      (h + (m - 1) * (m - 1)) % 10 = (h + d) % 10 := by
  have hcases : m = 1 ∨ m = 2 ∨ m = 3 ∨ m = 4 ∨ m = 5 ∨ m = 6 ∨ m = 7 ∨ m = 8 ∨ m = 9
      ∨ m = 10 := by omega
  rcases hcases with rfl | rfl | rfl | rfl | rfl | rfl | rfl | rfl | rfl | rfl
  · exact ⟨0, by decide, by omega⟩
  · exact ⟨1, by decide, by omega⟩
  · exact ⟨4, by decide, by omega⟩
  · exact ⟨9, by decide, by omega⟩
  · exact ⟨6, by decide, by omega⟩
  · exact ⟨5, by decide, by omega⟩
  · exact ⟨6, by decide, by omega⟩
  · exact ⟨9, by decide, by omega⟩
  · exact ⟨4, by decide, by omega⟩
  · exact ⟨1, by decide, by omega⟩

/-- Each of the six offsets is reached by some attempt. -/
theorem quad_attempt_of_offset (h d : Int) (hd : d ∈ ([0, 1, 4, 5, 6, 9] : List Int)) :
    ∃ m : Int, 1 ≤ m ∧ m ≤ 10 ∧ (h + (m - 1) * (m - 1)) % 10 = (h + d) % 10 := by
  have hcases : d = 0 ∨ d = 1 ∨ d = 4 ∨ d = 5 ∨ d = 6 ∨ d = 9 := by simpa using hd
  rcases hcases with rfl | rfl | rfl | rfl | rfl | rfl
  · exact ⟨1, by decide, by decide, by omega⟩
  · exact ⟨2, by decide, by decide, by omega⟩
  · exact ⟨3, by decide, by decide, by omega⟩
  · exact ⟨6, by decide, by decide, by omega⟩
  · exact ⟨5, by decide, by decide, by omega⟩
  · exact ⟨4, by decide, by decide, by omega⟩

/-- A ten-cell table whose six cells at the offsets `0, 1, 4, 5, 6, 9` from `h` are
occupied has at most four free cells. -/
theorem count_EMPTY_le_four (t : List Int) (hlen : t.length = 10) (h : Int)
    (h0 : 0 ≤ h) (h1 : h < 10)
    (hall : ∀ d : Int, d ∈ ([0, 1, 4, 5, 6, 9] : List Int) →
      readCell t ((h + d) % 10) ≠ some EMPTY) : t.count EMPTY ≤ 4 := by
  rcases t with _ | ⟨a0, _ | ⟨a1, _ | ⟨a2, _ | ⟨a3, _ | ⟨a4, _ | ⟨a5, _ | ⟨a6, _ | ⟨a7,
    _ | ⟨a8, _ | ⟨a9, _ | ⟨a10, t⟩⟩⟩⟩⟩⟩⟩⟩⟩⟩⟩ <;> simp at hlen
  have c0 := hall 0 (by decide)
  have c1 := hall 1 (by decide)
  have c4 := hall 4 (by decide)
  have c5 := hall 5 (by decide)
  have c6 := hall 6 (by decide)
  have c9 := hall 9 (by decide)
  have hcases : h = 0 ∨ h = 1 ∨ h = 2 ∨ h = 3 ∨ h = 4 ∨ h = 5 ∨ h = 6 ∨ h = 7 ∨ h = 8
      ∨ h = 9 := by omega
  rcases hcases with rfl | rfl | rfl | rfl | rfl | rfl | rfl | rfl | rfl | rfl <;>
    simp [readCell] at c0 c1 c4 c5 c6 c9 <;>
    simp only [List.count_cons, List.count_nil, beq_iff_eq, c0, c1, c4, c5, c6, c9,
      if_false] <;>
    split_ifs <;> omega

/-- C10. From the index `hash key` of a non-negative key, the ten attempts of the
quadratic sequence probe exactly the cells `(index + d) mod 10` for `d` in
`0, 1, 4, 5, 6, 9`, which are six distinct cells.  Hence `insertquad` on a
ten-cell table ends in the `No space in the hashtable` branch exactly when these
six cells are occupied; the table then has at most four free cells, and four
are possible (key `32` on a table with cells `0, 4, 5, 9` free). -/
theorem insertquad_noSpace_iff_six_cells (quadratic : List Int) (key : Int)
    (hlen : quadratic.length = 10) (hkey : 0 ≤ key) :
    (∀ c : Int,
      (∃ i : Int, 1 ≤ i ∧ i ≤ 10 ∧ Int.tmod (hash key + (i - 1) * (i - 1)) SIZE = c) ↔
      ∃ d : Int, d ∈ ([0, 1, 4, 5, 6, 9] : List Int) ∧ c = (hash key + d) % 10) ∧
    (([0, 1, 4, 5, 6, 9] : List Int).map (fun d => (hash key + d) % 10)).Nodup ∧
    ((insertquad key quadratic).1 = Outcome.noSpace ↔
      ∀ d : Int, d ∈ ([0, 1, 4, 5, 6, 9] : List Int) →
        readCell quadratic ((hash key + d) % 10) ≠ some EMPTY) ∧
    ((insertquad key quadratic).1 = Outcome.noSpace → quadratic.count EMPTY ≤ 4) ∧
    insertquad 32 [-1, 1, 2, 3, -1, -1, 6, 7, 8, -1]
      = (Outcome.noSpace, [-1, 1, 2, 3, -1, -1, 6, 7, 8, -1]) ∧
    ([-1, 1, 2, 3, -1, -1, 6, 7, 8, -1] : List Int).count EMPTY = 4 := by
  have hiff : (insertquad key quadratic).1 = Outcome.noSpace ↔
      ∀ d : Int, d ∈ ([0, 1, 4, 5, 6, 9] : List Int) →
        readCell quadratic ((hash key + d) % 10) ≠ some EMPTY := by
    rw [hash_of_nonneg hkey]
    rcases insertquad_spec hkey hlen with ⟨j, hj1, hj2, hj3, _, hres⟩ | ⟨hall, hres⟩
    · constructor
      · intro h; rw [hres] at h; cases h
      · intro h
        exfalso
        obtain ⟨d, hd, hd2⟩ := quad_offset_of_attempt (key % 10) j hj1 hj2
        rw [hd2] at hj3
        exact h d hd hj3
    · constructor
      · intro _ d hd
        obtain ⟨m, hm1, hm2, hm3⟩ := quad_attempt_of_offset (key % 10) d hd
        rw [← hm3]
        exact hall m hm1 hm2
      · intro _; rw [hres]
  refine ⟨?_, ?_, hiff, ?_, by decide, by decide⟩
  · intro c
    rw [hash_of_nonneg hkey]
    have htmod : ∀ i : Int, Int.tmod (key % 10 + (i - 1) * (i - 1)) SIZE
        = (key % 10 + (i - 1) * (i - 1)) % 10 := by
      intro i
      have h2 : 0 ≤ (i - 1) * (i - 1) := mul_self_nonneg _
      exact Int.tmod_eq_emod (by omega) (by decide)
    constructor
    · rintro ⟨i, hi1, hi2, hc⟩
      obtain ⟨d, hd, hd2⟩ := quad_offset_of_attempt (key % 10) i hi1 hi2
      exact ⟨d, hd, by rw [← hc, htmod, hd2]⟩
    · rintro ⟨d, hd, hc⟩
      obtain ⟨m, hm1, hm2, hm3⟩ := quad_attempt_of_offset (key % 10) d hd
      exact ⟨m, hm1, hm2, by rw [htmod, hm3, hc]⟩
  · rw [hash_of_nonneg hkey]
    simp only [List.map_cons, List.map_nil, List.nodup_cons, List.mem_cons,
      List.mem_singleton, List.not_mem_nil, or_false, not_or, not_false_eq_true,
      List.nodup_nil, and_true]
    omega
  · intro hfull
    exact count_EMPTY_le_four quadratic hlen (hash key) (hash_bounds hkey).1
      (hash_bounds hkey).2 (hiff.mp hfull)

/-- Instance of C10: key `32` on the table with cells `0, 4, 5, 9` free. -/
theorem insertquad_noSpace_iff_six_cells_witness :
    ([-1, 1, 2, 3, -1, -1, 6, 7, 8, -1] : List Int).length = 10 ∧ (0 : Int) ≤ 32 ∧
    ((insertquad 32 [-1, 1, 2, 3, -1, -1, 6, 7, 8, -1]).1 = Outcome.noSpace ↔
      ∀ d : Int, d ∈ ([0, 1, 4, 5, 6, 9] : List Int) →
        readCell ([-1, 1, 2, 3, -1, -1, 6, 7, 8, -1] : List Int) ((hash 32 + d) % 10)
          ≠ some EMPTY) :=
  ⟨by decide, by decide,
    (insertquad_noSpace_iff_six_cells [-1, 1, 2, 3, -1, -1, 6, 7, 8, -1] 32
      (by decide) (by decide)).2.2.1⟩

/-! ## Failed insertions -/

theorem insertquad_length {key : Int} (hkey : 0 ≤ key) {t : List Int}
    (hlen : t.length = 10) : (insertquad key t).2.length = 10 := by
  rcases insertquad_spec hkey hlen with ⟨j, _, _, _, _, hres⟩ | ⟨_, hres⟩
  · rw [hres]; simpa using hlen
  · rw [hres]; exact hlen

/-- C11. A call of `insertlinear` or `insertquad` with a non-negative key that
ends in the `No space in the hashtable` branch returns the ten-cell table it was
given, cell for cell; and whatever the outcome, the table still has ten cells,
so that at most ten of them are occupied. -/
theorem insert_noSpace_unchanged (t : List Int) (key : Int)
    (hlen : t.length = 10) (hkey : 0 ≤ key) :
    ((insertlinear key t).1 = Outcome.noSpace → (insertlinear key t).2 = t) ∧
    ((insertquad key t).1 = Outcome.noSpace → (insertquad key t).2 = t) ∧
    ((insertlinear key t).1 = Outcome.noSpace →
      ∀ n : Int, readCell (insertlinear key t).2 n = readCell t n) ∧
    ((insertquad key t).1 = Outcome.noSpace →
      ∀ n : Int, readCell (insertquad key t).2 n = readCell t n) ∧
    (insertlinear key t).2.length = 10 ∧
    (insertquad key t).2.length = 10 ∧
    ((insertlinear key t).2.filter (fun c => decide (c ≠ EMPTY))).length ≤ 10 ∧
    ((insertquad key t).2.filter (fun c => decide (c ≠ EMPTY))).length ≤ 10 := by
  have hlin : (insertlinear key t).1 = Outcome.noSpace → (insertlinear key t).2 = t := by
    intro h
    rcases insertlinear_spec hkey hlen with ⟨j, _, _, _, _, hres⟩ | ⟨_, hres⟩
    · rw [hres] at h; cases h
    · rw [hres]
  have hquad : (insertquad key t).1 = Outcome.noSpace → (insertquad key t).2 = t := by
    intro h
    rcases insertquad_spec hkey hlen with ⟨j, _, _, _, _, hres⟩ | ⟨_, hres⟩
    · rw [hres] at h; cases h
    · rw [hres]
  refine ⟨hlin, hquad, fun h n => by rw [hlin h], fun h n => by rw [hquad h],
    insertlinear_length hkey hlen, insertquad_length hkey hlen, ?_, ?_⟩
  · exact le_trans (List.length_filter_le _ _) (le_of_eq (insertlinear_length hkey hlen))
  · exact le_trans (List.length_filter_le _ _) (le_of_eq (insertquad_length hkey hlen))

/-- Instance of C11: key `20` on the full table built from `1, ..., 10`. -/
theorem insert_noSpace_unchanged_witness :
    ([10, 1, 2, 3, 4, 5, 6, 7, 8, 9] : List Int).length = 10 ∧ (0 : Int) ≤ 20 ∧
    (insertlinear 20 [10, 1, 2, 3, 4, 5, 6, 7, 8, 9]).1 = Outcome.noSpace ∧
    (insertquad 20 [10, 1, 2, 3, 4, 5, 6, 7, 8, 9]).1 = Outcome.noSpace ∧
    (insertlinear 20 [10, 1, 2, 3, 4, 5, 6, 7, 8, 9]).2 = [10, 1, 2, 3, 4, 5, 6, 7, 8, 9] ∧
    (insertquad 20 [10, 1, 2, 3, 4, 5, 6, 7, 8, 9]).2 = [10, 1, 2, 3, 4, 5, 6, 7, 8, 9] :=
  ⟨by decide, by decide, by decide, by decide,
    (insert_noSpace_unchanged [10, 1, 2, 3, 4, 5, 6, 7, 8, 9] 20 (by decide)
      (by decide)).1 (by decide),
    (insert_noSpace_unchanged [10, 1, 2, 3, 4, 5, 6, 7, 8, 9] 20 (by decide)
      (by decide)).2.1 (by decide)⟩

/-! ## The hash function and the probed indexes -/

/-- C12. For a non-negative key, `hash k` is `k mod 10` and lies in `[0, 10)`;
every index `(hash k + offset) % SIZE` with a non-negative offset, in particular
those of the ten attempts of the linear and quadratic operations, lies in
`[0, 10)`, and no operation on a ten-cell table leaves the array. -/
theorem hash_nonneg_index_valid (k : Int) (hk : 0 ≤ k) :
    hash k = k % 10 ∧ 0 ≤ hash k ∧ hash k < 10 ∧
    (∀ offset : Int, 0 ≤ offset →
      0 ≤ Int.tmod (hash k + offset) SIZE ∧ Int.tmod (hash k + offset) SIZE < 10) ∧
    (∀ i : Int, 1 ≤ i → i ≤ 10 →
      (0 ≤ linearProbe (hash k) i ∧ linearProbe (hash k) i < 10) ∧
      (0 ≤ quadProbe (hash k) i ∧ quadProbe (hash k) i < 10)) ∧
    (∀ (t : List Int) (idx : Int), t.length = 10 →
      (insertlinear k t).1 ≠ Outcome.badIndex idx ∧
      (insertquad k t).1 ≠ Outcome.badIndex idx ∧
      (searchlinear k t).1 ≠ Outcome.badIndex idx ∧
      (searchquad k t).1 ≠ Outcome.badIndex idx) := by
  refine ⟨hash_of_nonneg hk, (hash_bounds hk).1, (hash_bounds hk).2, ?_, ?_, ?_⟩
  · intro offset hoff
    have hb := hash_bounds hk
    have e : Int.tmod (hash k + offset) SIZE = (hash k + offset) % 10 :=
      Int.tmod_eq_emod (by omega) (by decide)
    rw [e]
    exact emod_ten_bounds _
  · intro i hi1 _
    rw [linearProbe_hash hk hi1, quadProbe_hash hk i]
    exact ⟨emod_ten_bounds _, emod_ten_bounds _⟩
  · intro t idx hlen
    refine ⟨?_, ?_, ?_, ?_⟩
    · rcases insertlinear_spec hk hlen with ⟨j, _, _, _, _, hres⟩ | ⟨_, hres⟩ <;>
        rw [hres] <;> exact fun h => Outcome.noConfusion h
    · rcases insertquad_spec hk hlen with ⟨j, _, _, _, _, hres⟩ | ⟨_, hres⟩ <;>
        rw [hres] <;> exact fun h => Outcome.noConfusion h
    · rcases searchlinear_spec hk hlen with ⟨j, _, _, _, h | h⟩ | ⟨_, hres⟩
      · rw [h.2]; exact fun h => Outcome.noConfusion h
      · rw [h.2.2]; exact fun h => Outcome.noConfusion h
      · rw [hres]; exact fun h => Outcome.noConfusion h
    · rcases searchquad_spec hk hlen with ⟨j, _, _, _, h | h⟩ | ⟨_, hres⟩
      · rw [h.2]; exact fun h => Outcome.noConfusion h
      · rw [h.2.2]; exact fun h => Outcome.noConfusion h
      · rw [hres]; exact fun h => Outcome.noConfusion h

/-- Instance of C12: the key `2147483647`, the largest `int`. -/
theorem hash_nonneg_index_valid_witness :
    (0 : Int) ≤ 2147483647 ∧ hash 2147483647 = 7 ∧
    hash 2147483647 = 2147483647 % 10 ∧ 0 ≤ hash 2147483647 ∧ hash 2147483647 < 10 :=
  ⟨by decide, by decide, (hash_nonneg_index_valid 2147483647 (by decide)).1,
    (hash_nonneg_index_valid 2147483647 (by decide)).2.1,
    (hash_nonneg_index_valid 2147483647 (by decide)).2.2.1⟩

/-- The truncating remainder of a negative number by ten. -/
theorem tmod_ten_of_neg {k : Int} (hk : k < 0) : Int.tmod k 10 = -((-k) % 10) := by
  obtain ⟨m, rfl⟩ := Int.eq_negSucc_of_lt_zero hk
  show -(((m + 1) % 10 : Nat) : Int) = -((-Int.negSucc m) % 10)
  rw [Int.neg_negSucc]
  push_cast
  rfl

/-- C15. For a negative key that is not a multiple of ten, `hash k` lies in
`[-9, -1]`; the index of the first attempt of the four probe operations is that
same negative value, so the first array access of `insertlinear`, `insertquad`,
`searchlinear`, `searchquad`, `insertchain` and `search_chain` is outside
`[0, 10)`. -/
theorem hash_negative_index_invalid (k : Int) (t : List Int) (hashtable : List (List Int))
    (hk : k < 0) (hmul : ¬ (10 : Int) ∣ k) :
    -9 ≤ hash k ∧ hash k ≤ -1 ∧
    Int.tmod (hash k + (1 - 1)) SIZE = hash k ∧
    Int.tmod (hash k + (1 - 1) * (1 - 1)) SIZE = hash k ∧
    insertlinear k t = (Outcome.badIndex (hash k), t) ∧
    insertquad k t = (Outcome.badIndex (hash k), t) ∧
    searchlinear k t = (Outcome.badIndex (hash k), t) ∧
    searchquad k t = (Outcome.badIndex (hash k), t) ∧
    insertchain k hashtable = none ∧
    search_chain k hashtable = Outcome.badIndex (hash k) := by
  have hh : hash k = -((-k) % 10) := tmod_ten_of_neg hk
  have h1 : -9 ≤ hash k := by omega
  have h2 : hash k ≤ -1 := by omega
  have hself : Int.tmod (hash k) SIZE = hash k := by
    have e := tmod_ten_of_neg (k := hash k) (by omega)
    unfold SIZE
    rw [e]
    omega
  have hlin : Int.tmod (hash k + (1 - 1)) SIZE = hash k := by
    have e : hash k + (1 - 1) = hash k := by omega
    rw [e, hself]
  have hquad : Int.tmod (hash k + (1 - 1) * (1 - 1)) SIZE = hash k := by
    have e : hash k + (1 - 1) * (1 - 1) = hash k := by omega
    rw [e, hself]
  have hcell : readCell t (hash k) = none := by
    unfold readCell
    rw [if_neg (by omega)]
  have hslot : readCell hashtable (hash k) = none := by
    unfold readCell
    rw [if_neg (by omega)]
  have hone : (1 : Int) ≤ SIZE := by decide
  refine ⟨h1, h2, hlin, hquad, ?_, ?_, ?_, ?_, ?_, ?_⟩
  · show insertlinearLoop k (hash k) (10 + 1) 1 t = _
    simp only [insertlinearLoop, hone, if_true, hlin, hcell]
  · show insertquadLoop k (hash k) (10 + 1) 1 t = _
    simp only [insertquadLoop, hone, if_true, hquad, hcell]
  · show searchlinearLoop k (hash k) (10 + 1) 1 t = _
    simp only [searchlinearLoop, hone, if_true, hlin, hcell]
  · show searchquadLoop k (hash k) (10 + 1) 1 t = _
    simp only [searchquadLoop, hone, if_true, hquad, hcell]
  · simp only [insertchain, hslot]
  · simp only [search_chain, hslot]

/-- Instance of C15: the key `-13` hashes to `-3`. -/
theorem hash_negative_index_invalid_witness :
    (-13 : Int) < 0 ∧ ¬ (10 : Int) ∣ (-13) ∧ hash (-13) = -3 ∧
    insertlinear (-13) emptyLinear = (Outcome.badIndex (hash (-13)), emptyLinear) ∧
    insertchain (-13) staticChains = none :=
  ⟨by decide, by decide, by decide,
    (hash_negative_index_invalid (-13) emptyLinear staticChains (by decide)
      (by decide)).2.2.2.2.1,
    (hash_negative_index_invalid (-13) emptyLinear staticChains (by decide)
      (by decide)).2.2.2.2.2.2.2.2.1⟩

/-! ## The averages of the driver -/

theorem cDiv_of_pos (a : Int) {n : Int} (hn : 0 < n) : cDiv a n = some (Int.tdiv a n) := by
  unfold cDiv
  rw [if_neg (by omega), if_neg (by omega)]

/-- For a positive element count whose insertions all returned, `main` prints the
two totals divided by the count, truncated. -/
theorem main_averages_of_pos (n : Int) (arr : List Int) (s : DriverState) (hn : 0 < n)
    (hloop : mainLoop arr (List.range n.toNat)
      { linearprobe := 0, quadprobe := 0, linear := (init staticTable staticTable).1,
        quadratic := (init staticTable staticTable).2, hashtable := staticChains }
      = LoopResult.next s) :
    main n arr = DriverOutcome.finished (Int.tdiv s.linearprobe n) (Int.tdiv s.quadprobe n)
      (searchquad 32 s.quadratic).1 := by
  simp only [main, hloop, cDiv_of_pos _ hn]

/-- C13, evaluated on the code.  With the element count `0` the insertion loop
of `main` is skipped and `linearprobe/n` is the division `0/0`, which has no
value: the driver does divide by zero, whatever follows the count in the input.
For a positive count the average is the truncated quotient: `9/3` is `3`, and
the run on `3, 13, 23` (totals `6` and `6`) prints `2` and `2`. -/
theorem main_zero_count_divides_by_zero :
    (∀ arr : List Int, main 0 arr = DriverOutcome.divisionUndefined) ∧
    cDiv 0 0 = none ∧
    cDiv 9 3 = some 3 ∧
    main 3 [3, 13, 23] = DriverOutcome.finished 2 2 (Outcome.returned (-1)) := by
  refine ⟨fun arr => rfl, by decide, by decide, by decide⟩

/-! ## Runs of insertions: what persists -/

theorem insertlinear_eq_seq {key : Int} (hkey : 0 ≤ key) (t : List Int) :
    insertlinear key t = probeInsert (linearSeq key) key 11 1 t :=
  insertlinear_eq_probe hkey t

theorem insertquad_eq_seq {key : Int} (hkey : 0 ≤ key) (t : List Int) :
    insertquad key t = probeInsert (quadSeq key) key 11 1 t :=
  insertquad_eq_probe hkey t

theorem searchlinear_eq_seq {key : Int} (hkey : 0 ≤ key) (t : List Int) :
    searchlinear key t = probeSearch (linearSeq key) key 11 1 t :=
  searchlinear_eq_probe hkey t

theorem searchquad_eq_seq {key : Int} (hkey : 0 ≤ key) (t : List Int) :
    searchquad key t = probeSearch (quadSeq key) key 11 1 t :=
  searchquad_eq_probe hkey t

theorem linearSeq_bounds (key m : Int) : 0 ≤ linearSeq key m ∧ linearSeq key m < 10 :=
  emod_ten_bounds _

theorem quadSeq_bounds (key m : Int) : 0 ≤ quadSeq key m ∧ quadSeq key m < 10 :=
  emod_ten_bounds _

theorem insertlinearAll_eq_seq (keys : List Int) :
    ∀ t : List Int, (∀ k ∈ keys, 0 ≤ k) →
      insertlinearAll keys t = probeInsertAll linearSeq keys t := by
  induction keys with
  | nil => intro t _; rfl
  | cons k rest ih =>
    intro t hkeys
    have hk : 0 ≤ k := hkeys k (List.mem_cons_self k rest)
    simp only [insertlinearAll, probeInsertAll, insertlinear_eq_seq hk,
      ih _ (fun x hx => hkeys x (List.mem_cons_of_mem k hx))]

theorem insertquadAll_eq_seq (keys : List Int) :
    ∀ t : List Int, (∀ k ∈ keys, 0 ≤ k) →
      insertquadAll keys t = probeInsertAll quadSeq keys t := by
  induction keys with
  | nil => intro t _; rfl
  | cons k rest ih =>
    intro t hkeys
    have hk : 0 ≤ k := hkeys k (List.mem_cons_self k rest)
    simp only [insertquadAll, probeInsertAll, insertquad_eq_seq hk,
      ih _ (fun x hx => hkeys x (List.mem_cons_of_mem k hx))]

/-- The insert loop from attempt one, with all ten attempts inside the array. -/
theorem probeInsert_cases (p : Int → Int) (hp : ∀ m : Int, 0 ≤ p m ∧ p m < 10) (key : Int)
    {t : List Int} (hlen : t.length = 10) :
    (∃ j : Int, 1 ≤ j ∧ j ≤ 10 ∧ readCell t (p j) = some EMPTY ∧
        (∀ m : Int, 1 ≤ m → m < j → readCell t (p m) ≠ some EMPTY) ∧
        probeInsert p key 11 1 t = (Outcome.returned j, t.set (p j).toNat key)) ∨
    ((∀ m : Int, 1 ≤ m → m ≤ 10 → readCell t (p m) ≠ some EMPTY) ∧
        probeInsert p key 11 1 t = (Outcome.noSpace, t)) :=
  probeInsert_spec p key t hlen (fun m _ _ => hp m) 11 1 (le_refl 1) (by decide) (by decide)

theorem probeInsert_length (p : Int → Int) (hp : ∀ m : Int, 0 ≤ p m ∧ p m < 10) (key : Int)
    {t : List Int} (hlen : t.length = 10) : (probeInsert p key 11 1 t).2.length = 10 := by
  rcases probeInsert_cases p hp key hlen with ⟨j, _, _, _, _, hres⟩ | ⟨_, hres⟩
  · rw [hres]; simpa using hlen
  · rw [hres]; exact hlen

/-- An insertion never changes an occupied cell. -/
theorem probeInsert_keeps (p : Int → Int) (hp : ∀ m : Int, 0 ≤ p m ∧ p m < 10) (key : Int)
    {t : List Int} (hlen : t.length = 10) {n v : Int} (hv : v ≠ EMPTY)
    (hread : readCell t n = some v) : readCell (probeInsert p key 11 1 t).2 n = some v := by
  rcases probeInsert_cases p hp key hlen with ⟨j, _, _, hj, _, hres⟩ | ⟨_, hres⟩
  · rw [hres]
    show readCell (t.set (p j).toNat key) n = some v
    rw [readCell_set hlen (hp j).1 (hp j).2]
    by_cases hn : n = p j
    · rw [hn, hj] at hread
      exact absurd (Option.some.inj hread).symm hv
    · rw [if_neg hn, hread]
  · rw [hres]; exact hread

/-- The values of a table after an insertion are the old ones and the key. -/
theorem probeInsert_mem (p : Int → Int) (hp : ∀ m : Int, 0 ≤ p m ∧ p m < 10) (key : Int)
    {t : List Int} (hlen : t.length = 10) {v : Int}
    (hmem : v ∈ (probeInsert p key 11 1 t).2) : v ∈ t ∨ v = key := by
  rcases probeInsert_cases p hp key hlen with ⟨j, _, _, _, _, hres⟩ | ⟨_, hres⟩
  · rw [hres] at hmem
    exact List.mem_or_eq_of_mem_set hmem
  · rw [hres] at hmem
    exact Or.inl hmem

theorem probeInsertAll_length (P : Int → Int → Int)
    (hP : ∀ k m : Int, 0 ≤ P k m ∧ P k m < 10) (keys : List Int) :
    ∀ t : List Int, t.length = 10 → (probeInsertAll P keys t).2.length = 10 := by
  induction keys with
  | nil => intro t hlen; exact hlen
  | cons k rest ih =>
    intro t hlen
    exact ih _ (probeInsert_length (P k) (hP k) k hlen)

theorem probeInsertAll_keeps (P : Int → Int → Int)
    (hP : ∀ k m : Int, 0 ≤ P k m ∧ P k m < 10) (keys : List Int) :
    ∀ t : List Int, t.length = 10 → ∀ n v : Int, v ≠ EMPTY → readCell t n = some v →
      readCell (probeInsertAll P keys t).2 n = some v := by
  induction keys with
  | nil => intro t _ n v _ h; exact h
  | cons k rest ih =>
    intro t hlen n v hv hread
    exact ih _ (probeInsert_length (P k) (hP k) k hlen) n v hv
      (probeInsert_keeps (P k) (hP k) k hlen hv hread)

theorem probeInsertAll_mem (P : Int → Int → Int)
    (hP : ∀ k m : Int, 0 ≤ P k m ∧ P k m < 10) (keys : List Int) :
    ∀ t : List Int, t.length = 10 → ∀ v : Int, v ∈ (probeInsertAll P keys t).2 →
      v ∈ t ∨ v ∈ keys := by
  induction keys with
  | nil => intro t _ v h; exact Or.inl h
  | cons k rest ih =>
    intro t hlen v hmem
    rcases ih _ (probeInsert_length (P k) (hP k) k hlen) v hmem with h | h
    · rcases probeInsert_mem (P k) (hP k) k hlen h with h2 | h2
      · exact Or.inl h2
      · exact Or.inr (h2 ▸ List.mem_cons_self k rest)
    · exact Or.inr (List.mem_cons_of_mem k h)

theorem probeInsertAll_append (P : Int → Int → Int) (xs ys : List Int) :
    ∀ t : List Int, probeInsertAll P (xs ++ ys) t
      = ((probeInsertAll P xs t).1 ++ (probeInsertAll P ys (probeInsertAll P xs t).2).1,
          (probeInsertAll P ys (probeInsertAll P xs t).2).2) := by
  induction xs with
  | nil => intro t; rfl
  | cons k rest ih =>
    intro t
    rw [List.cons_append]
    simp only [probeInsertAll]
    rw [ih]
    rfl

/-- The search loop returns the first attempt that probes the key, when no
earlier attempt probes a free cell. -/
theorem probeSearch_first (p : Int → Int) (hp : ∀ m : Int, 0 ≤ p m ∧ p m < 10) {key : Int}
    (hne : key ≠ EMPTY) {t : List Int} (hlen : t.length = 10) {i : Int}
    (hi1 : 1 ≤ i) (hi2 : i ≤ 10) (hfound : readCell t (p i) = some key)
    (hbefore : ∀ m : Int, 1 ≤ m → m < i →
      readCell t (p m) ≠ some key ∧ readCell t (p m) ≠ some EMPTY) :
    probeSearch p key 11 1 t = (Outcome.returned i, t) := by
  rcases probeSearch_spec p key t hlen (fun m _ _ => hp m) 11 1 (le_refl 1) (by decide)
    (by decide) with ⟨j, h1, h2, hprev, h | h⟩ | ⟨hall, _⟩
  · exfalso
    rcases lt_trichotomy j i with hlt | heq | hgt
    · exact (hbefore j h1 hlt).2 h.1
    · rw [heq, hfound] at h
      exact hne (Option.some.inj h.1)
    · exact (hprev i hi1 hgt).2 hfound
  · rcases lt_trichotomy j i with hlt | heq | hgt
    · exact absurd h.1 (hbefore j h1 hlt).1
    · rw [h.2.2, heq]
    · exact absurd hfound (hprev i hi1 hgt).2
  · exact absurd hfound (hall i hi1 hi2).2

/-- After key `k` was inserted at attempt `s1`, and whatever is inserted later:
the cell of attempt `s1` holds `k`, and the cells of the earlier attempts hold
what they held before that insertion, none of them free. -/
theorem probeInsert_history (P : Int → Int → Int)
    (hP : ∀ k m : Int, 0 ≤ P k m ∧ P k m < 10) {k : Int} (hne : k ≠ EMPTY)
    {tB t1 : List Int} (hlen : tB.length = 10) {s1 : Int}
    (hins : probeInsert (P k) k 11 1 tB = (Outcome.returned s1, t1)) (later : List Int) :
    1 ≤ s1 ∧ s1 ≤ 10 ∧
    readCell (probeInsertAll P later t1).2 (P k s1) = some k ∧
    ∀ m : Int, 1 ≤ m → m < s1 → ∃ v : Int, readCell tB (P k m) = some v ∧ v ≠ EMPTY ∧
      readCell (probeInsertAll P later t1).2 (P k m) = some v := by
  have hlen1 : t1.length = 10 := by
    have h := probeInsert_length (P k) (hP k) k hlen
    rw [hins] at h
    exact h
  rcases probeInsert_cases (P k) (hP k) k hlen with ⟨j, hj1, hj2, _, hj4, hres⟩ | ⟨_, hres⟩
  · rw [hins] at hres
    have hs : s1 = j := by
      have := congrArg Prod.fst hres
      exact Outcome.returned.inj this
    have ht : t1 = tB.set (P k j).toNat k := congrArg Prod.snd hres
    subst hs
    refine ⟨hj1, hj2, ?_, ?_⟩
    · apply probeInsertAll_keeps P hP later t1 hlen1 _ _ hne
      rw [ht, readCell_set hlen (hP k s1).1 (hP k s1).2, if_pos rfl]
    · intro m hm1 hm2
      obtain ⟨v, hv⟩ := readCell_of_lt hlen (hP k m).1 (hP k m).2
      have hvne : v ≠ EMPTY := by
        intro e
        rw [e] at hv
        exact hj4 m hm1 hm2 hv
      refine ⟨v, hv, hvne, ?_⟩
      apply probeInsertAll_keeps P hP later t1 hlen1 _ _ hvne
      have h := probeInsert_keeps (P k) (hP k) k hlen hvne hv
      rw [hins] at h
      exact h
  · rw [hins] at hres
    have := congrArg Prod.fst hres
    cases this

/-- Round trip for the common shape: a key that was not stored, was inserted at
attempt `s1`, and is searched for after any later insertions, is found at
attempt `s1`. -/
theorem probe_round_trip (P : Int → Int → Int)
    (hP : ∀ k m : Int, 0 ≤ P k m ∧ P k m < 10) {k : Int} (hne : k ≠ EMPTY)
    {tB t1 : List Int} (hlen : tB.length = 10) (habsent : k ∉ tB) {s1 : Int}
    (hins : probeInsert (P k) k 11 1 tB = (Outcome.returned s1, t1)) (later : List Int) :
    probeSearch (P k) k 11 1 (probeInsertAll P later t1).2
      = (Outcome.returned s1, (probeInsertAll P later t1).2) := by
  obtain ⟨h1, h2, h3, h4⟩ := probeInsert_history P hP hne hlen hins later
  have hlen1 : t1.length = 10 := by
    have h := probeInsert_length (P k) (hP k) k hlen
    rw [hins] at h
    exact h
  refine probeSearch_first (P k) (hP k) hne (probeInsertAll_length P hP later t1 hlen1)
    h1 h2 h3 ?_
  intro m hm1 hm2
  obtain ⟨v, hv1, hv2, hv3⟩ := h4 m hm1 hm2
  rw [hv3]
  constructor
  · intro e
    have hvk : v = k := Option.some.inj e
    apply habsent
    rw [← hvk]
    exact (mem_iff_readCell hlen v).mpr ⟨_, (hP k m).1, (hP k m).2, hv1⟩
  · intro e
    exact hv2 (Option.some.inj e)

/-- Inserting again a key that was inserted at attempt `s1`: a successful second
insertion takes more than `s1` attempts and fills a cell that was free. -/
theorem probe_duplicate (P : Int → Int → Int)
    (hP : ∀ k m : Int, 0 ≤ P k m ∧ P k m < 10) {k : Int} (hne : k ≠ EMPTY)
    {tB t1 : List Int} (hlen : tB.length = 10) {s1 : Int}
    (hins : probeInsert (P k) k 11 1 tB = (Outcome.returned s1, t1)) (later : List Int)
    {s2 : Int} {t2 : List Int}
    (hins2 : probeInsert (P k) k 11 1 (probeInsertAll P later t1).2
      = (Outcome.returned s2, t2)) :
    s1 < s2 ∧ s2 ≤ 10 ∧
    readCell (probeInsertAll P later t1).2 (P k s1) = some k ∧
    readCell (probeInsertAll P later t1).2 (P k s2) = some EMPTY ∧
    P k s1 ≠ P k s2 ∧
    readCell t2 (P k s1) = some k ∧ readCell t2 (P k s2) = some k ∧
    ∀ n : Int, n ≠ P k s2 → readCell t2 n = readCell (probeInsertAll P later t1).2 n := by
  obtain ⟨h1, h2, h3, h4⟩ := probeInsert_history P hP hne hlen hins later
  have hlen1 : t1.length = 10 := by
    have h := probeInsert_length (P k) (hP k) k hlen
    rw [hins] at h
    exact h
  have hlenF := probeInsertAll_length P hP later t1 hlen1
  rcases probeInsert_cases (P k) (hP k) k hlenF with ⟨j, _, hj2, hj3, _, hres⟩ | ⟨_, hres⟩
  · rw [hins2] at hres
    have hs : s2 = j := Outcome.returned.inj (congrArg Prod.fst hres)
    have ht : t2 = (probeInsertAll P later t1).2.set (P k j).toNat k := congrArg Prod.snd hres
    subst hs
    have hlt : s1 < s2 := by
      by_contra hcon
      rcases lt_or_eq_of_le (not_lt.mp hcon) with hlt2 | heq
      · obtain ⟨v, _, hv2, hv3⟩ := h4 s2 (by omega) hlt2
        rw [hv3] at hj3
        exact hv2 (Option.some.inj hj3)
      · rw [heq, h3] at hj3
        exact hne (Option.some.inj hj3)
    have hcell : P k s1 ≠ P k s2 := by
      intro e
      rw [e, hj3] at h3
      exact hne (Option.some.inj h3).symm
    have hread : ∀ n : Int, readCell t2 n
        = if n = P k s2 then some k else readCell (probeInsertAll P later t1).2 n := by
      intro n
      rw [ht]
      exact readCell_set hlenF (hP k s2).1 (hP k s2).2 k n
    refine ⟨hlt, hj2, h3, hj3, hcell, ?_, ?_, ?_⟩
    · rw [hread, if_neg hcell, h3]
    · rw [hread, if_pos rfl]
    · intro n hn
      rw [hread, if_neg hn]
  · rw [hins2] at hres
    have := congrArg Prod.fst hres
    cases this

theorem probeInsertAll_split (P : Int → Int → Int) (before after : List Int) (k : Int)
    (t0 : List Int) :
    (probeInsertAll P (before ++ k :: after) t0).2
      = (probeInsertAll P after
          (probeInsert (P k) k 11 1 (probeInsertAll P before t0).2).2).2 := by
  rw [probeInsertAll_append]
  rfl

/-- With a free cell in the table the linear insert loop finds one. -/
theorem probeInsert_linear_of_free {k : Int} {t : List Int} (hlen : t.length = 10)
    (hfree : EMPTY ∈ t) :
    ∃ j : Int, 1 ≤ j ∧ j ≤ 10 ∧ readCell t (linearSeq k j) = some EMPTY ∧
      probeInsert (linearSeq k) k 11 1 t
        = (Outcome.returned j, t.set (linearSeq k j).toNat k) := by
  rcases probeInsert_cases (linearSeq k) (linearSeq_bounds k) k hlen with
    ⟨j, hj1, hj2, hj3, _, hres⟩ | ⟨hall, _⟩
  · exact ⟨j, hj1, hj2, hj3, hres⟩
  · exfalso
    obtain ⟨n, h0, h1, hn⟩ := (mem_iff_readCell hlen EMPTY).mp hfree
    obtain ⟨m, hm1, hm2, hm3⟩ := linear_covers k n h0 h1
    have := hall m hm1 hm2
    unfold linearSeq at this
    rw [hm3] at this
    exact this hn

theorem mem_emptyLinear {v : Int} (h : v ∈ emptyLinear) : v = EMPTY := by
  rw [emptyLinear_eq] at h
  simpa [EMPTY] using h

theorem mem_emptyQuadratic {v : Int} (h : v ∈ emptyQuadratic) : v = EMPTY := by
  rw [emptyQuadratic_eq] at h
  simpa [EMPTY] using h

/-! ## Duplicate keys in the linear table -/

/-- C14. Take a linear table reached from the empty table by inserting
non-negative keys, `k` among them, that still has a free cell.  The earlier
insertion of `k` returned a step count `s1`, and inserting `k` again returns a
step count `s2 > s1`; the new copy goes to a cell that was free, different from
the cell of the earlier copy, so that `k` is in two distinct cells afterwards,
and no other cell changes.  This holds for each earlier insertion of `k`, the
first one included. -/
theorem insertlinear_duplicate_key (before after : List Int) (k : Int)
    (hkeys : ∀ x ∈ before ++ k :: after, 0 ≤ x)
    (hfree : EMPTY ∈ (insertlinearAll (before ++ k :: after) emptyLinear).2) :
    ∃ s1 s2 : Int,
      (insertlinear k (insertlinearAll before emptyLinear).2).1 = Outcome.returned s1 ∧
      (insertlinear k (insertlinearAll (before ++ k :: after) emptyLinear).2).1
        = Outcome.returned s2 ∧
      s1 < s2 ∧
      readCell (insertlinearAll (before ++ k :: after) emptyLinear).2
        ((k % 10 + (s1 - 1)) % 10) = some k ∧
      readCell (insertlinearAll (before ++ k :: after) emptyLinear).2
        ((k % 10 + (s2 - 1)) % 10) = some EMPTY ∧
      (k % 10 + (s1 - 1)) % 10 ≠ (k % 10 + (s2 - 1)) % 10 ∧
      readCell (insertlinear k (insertlinearAll (before ++ k :: after) emptyLinear).2).2
        ((k % 10 + (s1 - 1)) % 10) = some k ∧
      readCell (insertlinear k (insertlinearAll (before ++ k :: after) emptyLinear).2).2
        ((k % 10 + (s2 - 1)) % 10) = some k ∧
      ∀ n : Int, n ≠ (k % 10 + (s2 - 1)) % 10 →
        readCell (insertlinear k (insertlinearAll (before ++ k :: after) emptyLinear).2).2 n
          = readCell (insertlinearAll (before ++ k :: after) emptyLinear).2 n := by
  have hk : 0 ≤ k := hkeys k (List.mem_append_right before (List.mem_cons_self k after))
  have hne : k ≠ EMPTY := by unfold EMPTY; omega
  have hbefore : ∀ x ∈ before, 0 ≤ x := fun x hx => hkeys x (List.mem_append_left _ hx)
  have hB := insertlinearAll_eq_seq before emptyLinear hbefore
  have hF : (insertlinearAll (before ++ k :: after) emptyLinear).2
      = (probeInsertAll linearSeq after
          (probeInsert (linearSeq k) k 11 1 (probeInsertAll linearSeq before emptyLinear).2).2).2 := by
    rw [insertlinearAll_eq_seq _ _ hkeys, probeInsertAll_split]
  rw [hF] at hfree ⊢
  rw [hB, insertlinear_eq_seq hk, insertlinear_eq_seq hk]
  have hlenB : (probeInsertAll linearSeq before emptyLinear).2.length = 10 :=
    probeInsertAll_length linearSeq linearSeq_bounds before emptyLinear (by decide)
  have hlen1 := probeInsert_length (linearSeq k) (linearSeq_bounds k) k hlenB
  have hlenF := probeInsertAll_length linearSeq linearSeq_bounds after _ hlen1
  obtain ⟨s2, _, _, _, hins2⟩ := probeInsert_linear_of_free (k := k) hlenF hfree
  rcases probeInsert_cases (linearSeq k) (linearSeq_bounds k) k hlenB with
    ⟨s1, _, _, _, _, hins⟩ | ⟨hall, hres⟩
  · rw [hins] at hins2 ⊢
    obtain ⟨g1, _, g3, g4, g5, g6, g7, g8⟩ :=
      probe_duplicate linearSeq linearSeq_bounds hne hlenB hins after hins2
    refine ⟨s1, s2, rfl, congrArg Prod.fst hins2, g1, g3, g4, g5, ?_, ?_, ?_⟩
    · rw [hins2]; exact g6
    · rw [hins2]; exact g7
    · rw [hins2]; exact g8
  · exfalso
    rw [hres] at hfree
    have hfree2 : EMPTY ∈ (probeInsertAll linearSeq after
        (probeInsertAll linearSeq before emptyLinear).2).2 := hfree
    obtain ⟨n, h0, h1, hn⟩ := (mem_iff_readCell
      (probeInsertAll_length linearSeq linearSeq_bounds after _ hlenB) EMPTY).mp hfree2
    obtain ⟨v, hv⟩ := readCell_of_lt hlenB h0 h1
    have hvne : v ≠ EMPTY := by
      intro e
      obtain ⟨m, hm1, hm2, hm3⟩ := linear_covers k n h0 h1
      have := hall m hm1 hm2
      have e2 : linearSeq k m = n := hm3
      rw [e2, hv, e] at this
      exact this rfl
    have hkeep := probeInsertAll_keeps linearSeq linearSeq_bounds after _ hlenB n v hvne hv
    rw [hkeep] at hn
    exact hvne (Option.some.inj hn)

/-- Instance of C14: after `3, 13, 4`, the key `3` (first stored in one step) is
stored again in cell 6, in four steps. -/
theorem insertlinear_duplicate_key_witness :
    (∀ x ∈ ([] : List Int) ++ 3 :: [13, 4], 0 ≤ x) ∧
    EMPTY ∈ (insertlinearAll (([] : List Int) ++ 3 :: [13, 4]) emptyLinear).2 ∧
    (insertlinear 3 (insertlinearAll [] emptyLinear).2).1 = Outcome.returned 1 ∧
    insertlinear 3 (insertlinearAll (([] : List Int) ++ 3 :: [13, 4]) emptyLinear).2
      = (Outcome.returned 4, [-1, -1, -1, 3, 13, 4, 3, -1, -1, -1]) ∧
    ∃ s1 s2 : Int,
      (insertlinear 3 (insertlinearAll [] emptyLinear).2).1 = Outcome.returned s1 ∧
      (insertlinear 3 (insertlinearAll (([] : List Int) ++ 3 :: [13, 4]) emptyLinear).2).1
        = Outcome.returned s2 ∧
      s1 < s2 :=
  ⟨by decide, by decide, by decide, by decide,
    match insertlinear_duplicate_key [] [13, 4] 3 (by decide) (by decide) with
    | ⟨s1, s2, h1, h2, h3, _⟩ => ⟨s1, s2, h1, h2, h3⟩⟩

/-! ## Insert and search round trip -/

/-- C16. Take the linear (quadratic) table reached from the empty table by
inserting the non-negative keys `before`, then `k`, then `after`.  If `k` was
not stored when it was inserted (as when it does not occur in `before`) and that
insertion returned the step count `s`, then searching `k` in the final table
returns `s`, not `-1`, and leaves the table as it is. -/
theorem insert_search_round_trip (before after : List Int) (k s : Int)
    (hkeys : ∀ x ∈ before ++ k :: after, 0 ≤ x) :
    (k ∉ before →
      k ∉ (insertlinearAll before emptyLinear).2 ∧
      k ∉ (insertquadAll before emptyQuadratic).2) ∧
    (k ∉ (insertlinearAll before emptyLinear).2 →
      (insertlinear k (insertlinearAll before emptyLinear).2).1 = Outcome.returned s →
      searchlinear k (insertlinearAll (before ++ k :: after) emptyLinear).2
        = (Outcome.returned s, (insertlinearAll (before ++ k :: after) emptyLinear).2)) ∧
    (k ∉ (insertquadAll before emptyQuadratic).2 →
      (insertquad k (insertquadAll before emptyQuadratic).2).1 = Outcome.returned s →
      searchquad k (insertquadAll (before ++ k :: after) emptyQuadratic).2
        = (Outcome.returned s, (insertquadAll (before ++ k :: after) emptyQuadratic).2)) := by
  have hk : 0 ≤ k := hkeys k (List.mem_append_right before (List.mem_cons_self k after))
  have hne : k ≠ EMPTY := by unfold EMPTY; omega
  have hbefore : ∀ x ∈ before, 0 ≤ x := fun x hx => hkeys x (List.mem_append_left _ hx)
  have hBl := insertlinearAll_eq_seq before emptyLinear hbefore
  have hBq := insertquadAll_eq_seq before emptyQuadratic hbefore
  refine ⟨?_, ?_, ?_⟩
  · intro hnot
    rw [hBl, hBq]
    constructor
    · intro hmem
      rcases probeInsertAll_mem linearSeq linearSeq_bounds before emptyLinear (by decide)
        k hmem with h | h
      · exact hne (mem_emptyLinear h)
      · exact hnot h
    · intro hmem
      rcases probeInsertAll_mem quadSeq quadSeq_bounds before emptyQuadratic (by decide)
        k hmem with h | h
      · exact hne (mem_emptyQuadratic h)
      · exact hnot h
  · have hF : (insertlinearAll (before ++ k :: after) emptyLinear).2
        = (probeInsertAll linearSeq after (probeInsert (linearSeq k) k 11 1
            (probeInsertAll linearSeq before emptyLinear).2).2).2 := by
      rw [insertlinearAll_eq_seq _ _ hkeys, probeInsertAll_split]
    rw [hF, hBl, insertlinear_eq_seq hk, searchlinear_eq_seq hk]
    intro habsent hret
    exact probe_round_trip linearSeq linearSeq_bounds hne
      (probeInsertAll_length linearSeq linearSeq_bounds before emptyLinear (by decide))
      habsent (Prod.ext hret rfl) after
  · have hF : (insertquadAll (before ++ k :: after) emptyQuadratic).2
        = (probeInsertAll quadSeq after (probeInsert (quadSeq k) k 11 1
            (probeInsertAll quadSeq before emptyQuadratic).2).2).2 := by
      rw [insertquadAll_eq_seq _ _ hkeys, probeInsertAll_split]
    rw [hF, hBq, insertquad_eq_seq hk, searchquad_eq_seq hk]
    intro habsent hret
    exact probe_round_trip quadSeq quadSeq_bounds hne
      (probeInsertAll_length quadSeq quadSeq_bounds before emptyQuadratic (by decide))
      habsent (Prod.ext hret rfl) after

/-- Instance of C16: after `3, 13, 23, 4, 33`, the key `23` is found in three
steps in both tables, the step counts of its insertion. -/
theorem insert_search_round_trip_witness :
    (∀ x ∈ ([3, 13] : List Int) ++ 23 :: [4, 33], 0 ≤ x) ∧
    (23 : Int) ∉ ([3, 13] : List Int) ∧
    (insertlinear 23 (insertlinearAll [3, 13] emptyLinear).2).1 = Outcome.returned 3 ∧
    (insertquad 23 (insertquadAll [3, 13] emptyQuadratic).2).1 = Outcome.returned 3 ∧
    searchlinear 23 (insertlinearAll ([3, 13] ++ 23 :: [4, 33]) emptyLinear).2
      = (Outcome.returned 3, (insertlinearAll ([3, 13] ++ 23 :: [4, 33]) emptyLinear).2) ∧
    searchquad 23 (insertquadAll ([3, 13] ++ 23 :: [4, 33]) emptyQuadratic).2
      = (Outcome.returned 3, (insertquadAll ([3, 13] ++ 23 :: [4, 33]) emptyQuadratic).2) :=
  ⟨by decide, by decide, by decide, by decide,
    (insert_search_round_trip [3, 13] [4, 33] 23 3 (by decide)).2.1
      ((insert_search_round_trip [3, 13] [4, 33] 23 3 (by decide)).1 (by decide)).1
      (by decide),
    (insert_search_round_trip [3, 13] [4, 33] 23 3 (by decide)).2.2
      ((insert_search_round_trip [3, 13] [4, 33] 23 3 (by decide)).1 (by decide)).2
      (by decide)⟩

/-! ## At most ten insertions into the empty linear table -/

/-- Writing a key over a free cell adds the key to the occupied values. -/
theorem perm_filter_set (k : Int) (hk : k ≠ EMPTY) (t : List Int) :
    ∀ n : Nat, t[n]? = some EMPTY →
      List.Perm ((t.set n k).filter (fun c => decide (c ≠ EMPTY)))
        (k :: t.filter (fun c => decide (c ≠ EMPTY))) := by
  induction t with
  | nil => intro n h; simp at h
  | cons a rest ih =>
    intro n h
    cases n with
    | zero =>
      have ha : a = EMPTY := by simpa using h
      subst ha
      simp [List.filter_cons, hk]
    | succ m =>
      have hm : rest[m]? = some EMPTY := by simpa using h
      have hrec := ih m hm
      rw [List.set_cons_succ]
      by_cases ha : a = EMPTY
      · simp only [List.filter_cons, ha, ne_eq, not_true_eq_false, decide_False,
          Bool.false_eq_true, if_false]
        exact hrec
      · simp only [List.filter_cons, ha, ne_eq, not_false_eq_true, decide_True, if_true]
        exact (List.Perm.cons a hrec).trans (List.Perm.swap k a _)

/-- A run of linear insertions that finds enough free cells: every insertion
returns a step count and the occupied values grow by the inserted keys. -/
theorem insertlinearAll_perm (keys : List Int) :
    ∀ t : List Int, t.length = 10 → (∀ k ∈ keys, 0 ≤ k) → keys.length ≤ t.count EMPTY →
      (∀ o ∈ (insertlinearAll keys t).1,
        ∃ i : Int, 1 ≤ i ∧ i ≤ 10 ∧ o = Outcome.returned i) ∧
      List.Perm ((insertlinearAll keys t).2.filter (fun c => decide (c ≠ EMPTY)))
        (t.filter (fun c => decide (c ≠ EMPTY)) ++ keys) := by
  induction keys with
  | nil =>
    intro t _ _ _
    refine ⟨fun o ho => ?_, ?_⟩
    · simp [insertlinearAll] at ho
    · simp [insertlinearAll]
  | cons k rest ih =>
    intro t hlen hkeys hcount
    have hk : 0 ≤ k := hkeys k (List.mem_cons_self k rest)
    have hne : k ≠ EMPTY := by unfold EMPTY; omega
    simp only [List.length_cons] at hcount
    have hfree : EMPTY ∈ t := List.count_pos_iff.mp (by omega)
    obtain ⟨j, hj1, hj2, hj3, hres⟩ := probeInsert_linear_of_free (k := k) hlen hfree
    rw [← insertlinear_eq_seq hk] at hres
    have hb := linearSeq_bounds k j
    have hget : t[(linearSeq k j).toNat]? = some EMPTY := by
      have h := hj3
      unfold readCell at h
      rwa [if_pos hb.1] at h
    have hstep := perm_filter_set k hne t _ hget
    have hlen1 : (t.set (linearSeq k j).toNat k).length = 10 := by simpa using hlen
    have hcount1 : rest.length ≤ (t.set (linearSeq k j).toNat k).count EMPTY := by
      have h := insertlinear_count hk hlen
      rw [hres] at h
      have h2 : (t.set (linearSeq k j).toNat k).count EMPTY = t.count EMPTY - 1 := h
      omega
    obtain ⟨ih1, ih2⟩ := ih _ hlen1 (fun x hx => hkeys x (List.mem_cons_of_mem k hx)) hcount1
    simp only [insertlinearAll, hres]
    refine ⟨?_, ?_⟩
    · intro o ho
      rcases List.mem_cons.mp ho with h | h
      · exact ⟨j, hj1, hj2, h⟩
      · exact ih1 o h
    · exact (ih2.trans (List.Perm.append_right rest hstep)).trans List.perm_middle.symm

/-- C17. For at most ten non-negative keys, duplicates allowed, inserted in order
into the empty linear table: every `insertlinear` returns a step count, none
ends in the `No space in the hashtable` branch, and afterwards the values of the
occupied cells are, as a multiset, the inserted keys; in particular there are as
many occupied cells as insertions. -/
theorem insertlinear_up_to_ten (keys : List Int)
    (hlen : keys.length ≤ 10) (hkeys : ∀ k ∈ keys, 0 ≤ k) :
    (∀ o ∈ (insertlinearAll keys emptyLinear).1,
      ∃ i : Int, 1 ≤ i ∧ i ≤ 10 ∧ o = Outcome.returned i) ∧
    Outcome.noSpace ∉ (insertlinearAll keys emptyLinear).1 ∧
    (insertlinearAll keys emptyLinear).1.length = keys.length ∧
    List.Perm ((insertlinearAll keys emptyLinear).2.filter (fun c => decide (c ≠ EMPTY)))
      keys ∧
    (((insertlinearAll keys emptyLinear).2.filter (fun c => decide (c ≠ EMPTY)) : List Int)
        : Multiset Int) = (keys : Multiset Int) ∧
    ((insertlinearAll keys emptyLinear).2.filter (fun c => decide (c ≠ EMPTY))).length
      = keys.length := by
  have hcount : emptyLinear.count EMPTY = 10 := by decide
  obtain ⟨h1, h2⟩ := insertlinearAll_perm keys emptyLinear (by decide) hkeys (by omega)
  have hnil : emptyLinear.filter (fun c => decide (c ≠ EMPTY)) = [] := by decide
  rw [hnil, List.nil_append] at h2
  have hlenOut : ∀ (ks t : List Int), (insertlinearAll ks t).1.length = ks.length := by
    intro ks
    induction ks with
    | nil => intro t; rfl
    | cons a rest ih => intro t; simp only [insertlinearAll, List.length_cons, ih]
  refine ⟨h1, ?_, hlenOut keys emptyLinear, h2, Multiset.coe_eq_coe.mpr h2, h2.length_eq⟩
  intro hmem
  obtain ⟨i, _, _, hi⟩ := h1 _ hmem
  cases hi

/-- Instance of C17: ten keys with duplicates and wrap-around. -/
theorem insertlinear_up_to_ten_witness :
    ([9, 19, 9, 3, 13, 3, 0, 8, 7, 7] : List Int).length ≤ 10 ∧
    (∀ k ∈ ([9, 19, 9, 3, 13, 3, 0, 8, 7, 7] : List Int), 0 ≤ k) ∧
    (insertlinearAll [9, 19, 9, 3, 13, 3, 0, 8, 7, 7] emptyLinear).2
      = [19, 9, 0, 3, 13, 3, 7, 7, 8, 9] ∧
    Outcome.noSpace ∉ (insertlinearAll [9, 19, 9, 3, 13, 3, 0, 8, 7, 7] emptyLinear).1 ∧
    ((insertlinearAll [9, 19, 9, 3, 13, 3, 0, 8, 7, 7] emptyLinear).2.filter
      (fun c => decide (c ≠ EMPTY))).length
      = ([9, 19, 9, 3, 13, 3, 0, 8, 7, 7] : List Int).length :=
  ⟨by decide, by decide, by decide,
    (insertlinear_up_to_ten [9, 19, 9, 3, 13, 3, 0, 8, 7, 7] (by decide) (by decide)).2.1,
    (insertlinear_up_to_ten [9, 19, 9, 3, 13, 3, 0, 8, 7, 7] (by decide)
      (by decide)).2.2.2.2.2⟩

end HashIn1
